import Mathlib

set_option maxRecDepth 1000000
set_option maxHeartbeats 4000000

/-!
Shallow embedding of the Sudoku solver from `src/controllers/sudoku-solver.js`
(class `SudokuSolver`), together with the puzzle-string error mapping of the
request layer in `src/routes/api.js`.

Modelling conventions:
* a JS `null` cell is `Option.none`; a digit cell is `some d`;
* a JS `Set` is a duplicate-free `List` in insertion order (`jsSet`
  deduplicates keeping the first occurrence, exactly like `new Set(...)`);
* in-place mutation of `this.sudokuBoard` is explicit state passing: every
  operation that mutates the board returns the new board;
* `Math.random()` is an oracle `o : Nat → Nat` consulted with a running
  counter `k`; `Math.floor(Math.random() * n)` — an arbitrary index in
  `0..n-1` — is modelled as `o k % n`;
* the `verbose` flag only produces `console.log` output and is omitted.
-/

namespace SudokuSolver

/-- A board cell: `none` is the JS `null` (empty), `some d` a placed digit. -/
abbrev Cell := Option Nat

/-- JS truthiness `!!value` for a cell: `null` and `0` are falsy. -/
def truthy : Cell → Bool
  | none => false
  | some v => v != 0

/-- The JS constant `completedSet = new Set([1, ..., 9])`. -/
def completedSet : List Cell :=
  [some 1, some 2, some 3, some 4, some 5, some 6, some 7, some 8, some 9]

/-- A JS `new Set(l)`: deduplicate keeping first occurrences, in order
(membership is the boolean `contains`, decidable equality of cells). -/
def jsSet (l : List Cell) : List Cell :=
  l.foldl (fun acc x => if acc.contains x then acc else acc ++ [x]) []

/-- JS `Set.delete`: on a duplicate-free list, removing an element is `filter`. -/
def setDelete (s : List Cell) (x : Cell) : List Cell :=
  s.filter (fun y => !(y == x))

/-- The `symmetricDifference(setA, setB)` helper of the source: copy `setA`
into a fresh set, then for each element of `setB` delete it if present,
otherwise add it. -/
def symmetricDifference (setA setB : List Cell) : List Cell :=
  setB.foldl (fun d e => if d.contains e then setDelete d e else d ++ [e]) (jsSet setA)

/-- The `isValidValue(valueSet, value)` helper: copy the value set, delete
`null`, and test membership of `value` in the symmetric difference with
`completedSet`. -/
def isValidValue (valueSet : List Cell) (value : Nat) : Bool :=
  (symmetricDifference (setDelete (jsSet valueSet) none) completedSet).contains (some value)

/-- The board: 9 regions (3x3 blocks, row-major), each a list of 3 rows of 3
cells, exactly the nested-array layout of `this.sudokuBoard`. -/
abbrev Board := List (List (List Cell))

/-- The all-`null` board built by the constructor. -/
def emptyBoard : Board :=
  List.replicate 9 (List.replicate 3 (List.replicate 3 none))

/-- `regionIndex(i) = floor(i / 27) * 3 + floor((i % 27) / 3) % 3`. -/
def regionIndex (i : Nat) : Nat :=
  (i / 27) * 3 + (i % 27) / 3 % 3

/-- `regionRowIndex(i) = floor((i % 27) / 9)`. -/
def regionRowIndex (i : Nat) : Nat :=
  (i % 27) / 9

/-- `regionRowCellIndex(i) = (i % 9) % 3`. -/
def regionRowCellIndex (i : Nat) : Nat :=
  (i % 9) % 3

/-- `boardRowIndex(i) = floor(i / 9)`. -/
def boardRowIndex (i : Nat) : Nat := i / 9

/-- `boardColumnIndex(i) = i % 9`. -/
def boardColumnIndex (i : Nat) : Nat := i % 9

/-- The read `this.sudokuBoard[regionIndex(i)][regionRowIndex(i)][regionRowCellIndex(i)]`
performed by `getCell` and the string/board converters (out-of-range JS
indexing cannot occur on the real board; `getD` supplies defaults). -/
def readBoard (b : Board) (i : Nat) : Cell :=
  ((b.getD (regionIndex i) []).getD (regionRowIndex i) []).getD (regionRowCellIndex i) none

/-- The corresponding nested-array assignment. -/
def writeBoard (b : Board) (i : Nat) (v : Cell) : Board :=
  let q := regionIndex i
  let reg := b.getD q []
  let r := regionRowIndex i
  let row := reg.getD r []
  b.set q (reg.set r (row.set (regionRowCellIndex i) v))

/-- `getCell(row, column)`. -/
def getCell (b : Board) (row column : Nat) : Cell :=
  readBoard b (row * 9 + column)

/-- `setCell(row, column, value)`: guarded by `/[1-9]/.test(value) || value === null`.
On a natural number the regex test accepts exactly `1 ≤ v` (the leading
decimal digit of a positive number is nonzero); `null` passes the guard and
`!!value ? +value : null` stores `null`. The source returns `this.getCell(...)`,
which every caller discards, so the model returns the updated board. -/
def setCell (b : Board) (row column : Nat) (value : Cell) : Board :=
  match value with
  | none => writeBoard b (row * 9 + column) none
  | some v => if 1 ≤ v then writeBoard b (row * 9 + column) (some v) else b

/-- `removeCell(row, column)`: store `null`. -/
def removeCell (b : Board) (row column : Nat) : Board :=
  writeBoard b (row * 9 + column) none

/-- `getBoardRegion(row, column)`: the region containing the cell, flattened. -/
def getBoardRegion (b : Board) (row column : Nat) : List Cell :=
  let indexNum := row * 9 + column
  (b.getD (regionIndex indexNum) []).flatten

/-- `getBoardRow(row)`: rows are assembled from the three regions
`indexSquare`, `indexSquare + 1`, `indexSquare + 2` at inner row `indexRow`,
then flattened. -/
def getBoardRow (b : Board) (row : Nat) : List Cell :=
  let indexNum := row * 9
  let indexRow := regionRowIndex indexNum
  let indexSquare := regionIndex indexNum
  ((List.range 3).map (fun offset => (b.getD (indexSquare + offset) []).getD indexRow [])).flatten

/-- `getBoardColumn(column)`: a loop over `row = 0..8` reading
`this.sudokuBoard[regionIndex(row*9+column)][...][...]`. -/
def getBoardColumn (b : Board) (column : Nat) : List Cell :=
  (List.range 9).map (fun row => readBoard b (row * 9 + column))

/-- The character class of the regex `/^[.1-9]+$/`. -/
def puzzleChars : List Char :=
  ['.', '1', '2', '3', '4', '5', '6', '7', '8', '9']

/-- `isValidLength(puzzleString)`. -/
def isValidLength (s : String) : Bool :=
  s.length == 81

/-- `isValidCharacters(puzzleString)`: the regex `/^[.1-9]+$/` demands a
non-empty string all of whose characters lie in the class `[.1-9]`. -/
def isValidCharacters (s : String) : Bool :=
  !s.data.isEmpty && s.data.all (fun c => puzzleChars.contains c)

/-- `isValidPuzzleString(puzzleString)`. -/
def isValidPuzzleString (s : String) : Bool :=
  isValidLength s && isValidCharacters s

/-- `isValidRowPlacement(row, column, value)`. -/
def isValidRowPlacement (b : Board) (row column : Nat) (value : Nat) : Bool :=
  if truthy (getCell b row column) then false
  else isValidValue (getBoardRow b row) value

/-- `isValidColumnPlacement(row, column, value)`. -/
def isValidColumnPlacement (b : Board) (row column : Nat) (value : Nat) : Bool :=
  if truthy (getCell b row column) then false
  else isValidValue (getBoardColumn b column) value

/-- `isValidRegionPlacement(row, column, value)`. -/
def isValidRegionPlacement (b : Board) (row column : Nat) (value : Nat) : Bool :=
  if truthy (getCell b row column) then false
  else isValidValue (getBoardRegion b row column) value

/-- Shared tail of `getValidPossibleValues`: collect region, row and column
into one set, drop `null`, take the symmetric difference with `completedSet`,
and restore the previous value with `setCell` before returning. -/
def getValidPossibleValuesTail (b : Board) (row column : Nat) (cellValue : Cell) :
    List Cell × Board :=
  let currentValues := [getBoardRegion b row column, getBoardRow b row, getBoardColumn b column]
  let currentSet := setDelete (jsSet currentValues.flatten) none
  let possibleValues := symmetricDifference currentSet completedSet
  (possibleValues, setCell b row column cellValue)

/-- `getValidPossibleValues(row, column, removeCurrentValue = false)`: with
`removeCurrentValue` the cell is cleared first (and restored at the end);
otherwise an occupied cell short-circuits to the singleton `new Set([cellValue])`. -/
def getValidPossibleValues (b : Board) (row column : Nat) (removeCurrentValue : Bool) :
    List Cell × Board :=
  let cellValue := getCell b row column
  if removeCurrentValue then
    getValidPossibleValuesTail (removeCell b row column) row column cellValue
  else if truthy cellValue then
    (jsSet [cellValue], b)
  else
    getValidPossibleValuesTail b row column cellValue

/-- The `for (let i = 0; i < 81; i++)` loop of `isValidBoard`, threading the
board through the clear-and-restore candidate computation. The remaining
iteration count `fuel` (kept equal to `81 - i`) makes the recursion
structural; the loop exits exactly when it reaches `i = 81`. -/
def isValidBoardFrom (b : Board) (i : Nat) : Nat → Bool × Board
  | 0 => (true, b)
  | fuel + 1 =>
    let row := boardRowIndex i
    let column := boardColumnIndex i
    let cellValue := getCell b row column
    let vv := getValidPossibleValues b row column true
    if truthy cellValue && !(vv.1.contains cellValue) then (false, vv.2)
    else isValidBoardFrom vv.2 (i + 1) fuel

/-- `isValidBoard()`. -/
def isValidBoard (b : Board) : Bool × Board :=
  isValidBoardFrom b 0 81

/-- `isBoardSolved()`: the symmetric difference of all 81 cells (`flat(2)`)
against `completedSet` must be empty, and the board must be valid. -/
def isBoardSolved (b : Board) : Bool × Board :=
  let diff := symmetricDifference b.flatten.flatten completedSet
  let r := isValidBoard b
  (r.1 && diff.length == 0, r.2)

/-- Rendering of one cell in `getStringFromBoard`: `!!value ? value : '.'`,
with the JS number-to-string coercion of `join('')`. -/
def cellString (value : Cell) : String :=
  match value with
  | some v => if v != 0 then toString v else "."
  | none => "."

/-- `getStringFromBoard()`. -/
def getStringFromBoard (b : Board) : String :=
  String.join ((List.range 81).map (fun index => cellString (readBoard b index)))

/-- JS unary plus on a one-character digit string (only ever applied to
`'1'..'9'` thanks to the guards around it). -/
def jsCharNum (d : Char) : Nat := d.toNat - 48

/-- One assignment of the `forEach` in `setBoardFromString`:
`d !== '.' ? +d : null`. -/
def charToCell (d : Char) : Cell :=
  if d ≠ '.' then some (jsCharNum d) else none

/-- The `forEach((d, i) => ...)` of `setBoardFromString`, index threaded. -/
def setCells (b : Board) (i : Nat) : List Char → Board
  | [] => b
  | d :: rest => setCells (writeBoard b i (charToCell d)) (i + 1) rest

/-- `setBoardFromString(puzzleString)`: silently leaves the board unchanged
unless `isValidPuzzleString` accepts the string. -/
def setBoardFromString (b : Board) (s : String) : Board :=
  if isValidPuzzleString s then setCells b 0 s.data else b

/-- One entry of the `cells` array in `solve` (and of `attemptStack`): the
chosen coordinate, the remaining untried candidate values, and the serialized
board snapshot stored into `cell.string` after a placement (empty until then). -/
structure Frame where
  row : Nat
  column : Nat
  values : List Cell
  string : String
deriving DecidableEq, Repr

/-- The scan of `solve` that collects, over `index = 0..80`, the empty cells
whose candidate count is minimal so far (`currentValidValues.size <=
numberOfValidValues` keeps ties, filtering out cells that no longer attain
the minimum). -/
def scanFrom (b : Board) (index : Nat) (cells : List Frame) (numberOfValidValues : Nat) :
    Nat → List Frame × Board
  | 0 => (cells, b)
  | fuel + 1 =>
    let row := boardRowIndex index
    let column := boardColumnIndex index
    let cellValue := getCell b row column
    if truthy cellValue then scanFrom b (index + 1) cells numberOfValidValues fuel
    else
      let cvv := getValidPossibleValues b row column false
      if cvv.1.length ≤ numberOfValidValues then
        let n := cvv.1.length
        let cells1 := (cells.filter (fun e => e.values.length == n)) ++
          [{ row := row, column := column, values := cvv.1, string := "" }]
        scanFrom cvv.2 (index + 1) cells1 n fuel
      else scanFrom cvv.2 (index + 1) cells numberOfValidValues fuel

/-- Cell selection: `cells.pop()` when deterministic, otherwise
`cells[Math.floor(Math.random() * cells.length)]` with the random draw
modelled by `r`. An empty `cells` array yields `undefined` (`none`). -/
def selectCell (deterministic : Bool) (r : Nat) (cells : List Frame) : Option Frame :=
  if deterministic then cells.getLast?
  else cells.get? (if cells.length == 0 then 0 else r % cells.length)

/-- The backtracking inner `while`: pop frames until one with untried values
is found, or the stack is exhausted (the last popped frame is kept either way). -/
def popUntil : List Frame → Option Frame × List Frame
  | [] => (none, [])
  | f :: rest =>
    if f.values.length > 0 then (some f, rest)
    else
      match rest with
      | [] => (some f, [])
      | _ :: _ => popUntil rest

/-- Terminal outcomes of `solve`. The source returns the strings
`'invalid board'`, `'Unsolvable puzzle layout'`, `'timeout attempting to solve'`,
or the solved board string; `crash` stands for the JS `TypeError` that would be
thrown if the cell selection produced `undefined` (no empty cell found while
the board is not solved), which is unreachable from a valid start. -/
inductive SolveResult where
  | invalidBoard
  | unsolvable
  | timeout
  | solved (s : String)
  | crash
deriving DecidableEq, Repr

/-- Result of one body of the `while` loop in `solve`: either a terminal
return (with the board state at that point), or the continuation state. -/
inductive StepOut where
  | done (r : SolveResult) (b : Board)
  | next (b : Board) (stack : List Frame) (k : Nat)
deriving DecidableEq, Repr

/-- The backtracking block of the loop body: when the selected cell has no
untried values and the attempt stack is non-empty, pop frames down to one
with values left and restore its board snapshot with `setBoardFromString`. -/
def backtrack (cell0 : Frame) (attemptStack : List Frame) (b : Board) :
    Frame × List Frame × Board :=
  if cell0.values.length == 0 && decide (attemptStack.length > 0) then
    match popUntil attemptStack with
    | (some c, rest) => (c, rest, setBoardFromString b c.string)
    | (none, rest) => (cell0, rest, b)
  else (cell0, attemptStack, b)

/-- Value selection from the selected cell: `cell.values.pop()` when
deterministic, otherwise a random index that is then spliced out; also
returns the untried values left in the frame and the updated draw counter. -/
def pickValue (deterministic : Bool) (o : Nat → Nat) (values : List Cell) (k1 : Nat) :
    Option Cell × List Cell × Nat :=
  if deterministic then (values.getLast?, values.dropLast, k1)
  else
    let n := values.length
    let idx := if n == 0 then 0 else o k1 % n
    (values.get? idx, values.eraseIdx idx, k1 + 1)

/-- One iteration body of the `while (!this.isBoardSolved())` loop in `solve`
after the solved test: scan for minimal-candidate cells, select one, backtrack
if it has no candidates, pick a value (`pop` or random splice), place it, and
push the updated frame. The attempt stack keeps its top at the list head. -/
def solveStep (deterministic : Bool) (o : Nat → Nat) (b : Board)
    (attemptStack : List Frame) (k : Nat) : StepOut :=
  let scanned := scanFrom b 0 [] 9 81
  let k1 := if deterministic then k else k + 1
  match selectCell deterministic (o k) scanned.1 with
  | none => StepOut.done SolveResult.crash scanned.2
  | some cell0 =>
    let bt := backtrack cell0 attemptStack scanned.2
    let cell1 := bt.1
    let stack1 := bt.2.1
    let b2 := bt.2.2
    if cell1.values.length == 0 && stack1.length == 0 then
      StepOut.done SolveResult.unsolvable b2
    else
      let pick := pickValue deterministic o cell1.values k1
      match pick.1 with
      | none => StepOut.done SolveResult.crash b2
      | some v =>
        let b3 := setCell b2 cell1.row cell1.column v
        let frame : Frame :=
          { row := cell1.row, column := cell1.column, values := pick.2.1,
            string := getStringFromBoard b3 }
        StepOut.next b3 (frame :: stack1) pick.2.2

/-- The `while (!this.isBoardSolved())` loop of `solve`. `attemptCount` is the
source's counter (incremented at the top of each iteration and compared with
the 5000 ceiling after a placement); `fuel` is the structural-recursion budget,
kept equal to `5000 - attemptCount` from the entry point so that the `0` case
is never reached (it conservatively returns the same timeout outcome). -/
def solveLoop (deterministic : Bool) (o : Nat → Nat) (fuel : Nat) (b : Board)
    (attemptStack : List Frame) (attemptCount k : Nat) : SolveResult × Board :=
  match fuel with
  | 0 => (SolveResult.timeout, b)
  | fuel + 1 =>
    let solved := isBoardSolved b
    if solved.1 then (SolveResult.solved (getStringFromBoard solved.2), solved.2)
    else
      match solveStep deterministic o solved.2 attemptStack k with
      | StepOut.done r bd => (r, bd)
      | StepOut.next b1 stack1 k1 =>
        if attemptCount + 1 == 5000 then (SolveResult.timeout, b1)
        else solveLoop deterministic o fuel b1 stack1 (attemptCount + 1) k1

/-- `solve()`: check `isValidBoard` first, then run the search loop with an
empty attempt stack and `attemptCount = 0`. -/
def solve (deterministic : Bool) (o : Nat → Nat) (b : Board) : SolveResult × Board :=
  let v := isValidBoard b
  if v.1 then solveLoop deterministic o 5000 v.2 [] 0 0
  else (SolveResult.invalidBoard, v.2)

/-- The `getPuzzleStringError` helper of `src/routes/api.js`: maps an invalid
puzzle string to the caller-visible error message, checking length first. -/
def getPuzzleStringError (s : String) : String :=
  if !(isValidPuzzleString s) then
    if !(isValidLength s) then "Expected puzzle to be 81 characters long"
    else if !(isValidCharacters s) then "Invalid characters in puzzle"
    else "Unknown error, this is a bug"
  else "Valid puzzle passed to getPuzzleStringError function, this is a bug"

/-- The flat index of member `t` (0..8) of region `q` (0..8). -/
def regionMemberIndex (q t : Nat) : Nat :=
  (q / 3 * 3 + t / 3) * 9 + (q % 3 * 3 + t % 3)

/-- The inverse of the nested-index triple. -/
def flatIndex (q r c : Nat) : Nat :=
  (q / 3 * 3 + r) * 9 + (q % 3 * 3 + c)

/-- A cell value the class can store: empty, or a digit 1..9 (the constructor
fills `null`, `setBoardFromString` stores digits, `setCell` only writes
digits or `null`). -/
def cellOK : Cell → Bool
  | none => true
  | some v => decide (1 ≤ v) && decide (v ≤ 9)

/-- The structural invariant of `this.sudokuBoard`: 9 regions of 3 rows of 3
cells. -/
def shapeOK (b : Board) : Bool :=
  b.length == 9 && b.all (fun region => region.length == 3 &&
    region.all (fun r => r.length == 3))

/-- Full board invariant: correct shape and every stored value empty or 1..9. -/
def wfBoard (b : Board) : Bool :=
  shapeOK b && b.all (fun region => region.all (fun r => r.all cellOK))


/-! ### Concrete inputs used by the tests below -/

/-- The example puzzle of the project documentation and test fixtures. -/
def examplePuzzle : String :=
  "..9..5.1.85.4....2432......1...69.83.9.....6.62.71...9......1945....4.37.4.3..6.."

/-- A completed, fully valid board. -/
def fullSolution : String :=
  "134256789289137456567489123875394261392561874416872395923648517748915632651723948"

/-- `fullSolution` with the single cell at row 0, column 0 blanked. -/
def nearSolved : String :=
  ".34256789289137456567489123875394261392561874416872395923648517748915632651723948"

/-- `fullSolution` with the four cells (0,0), (0,3), (1,0), (1,3) blanked.
Those four cells held the value pattern 1/2, 2/1 across two regions, so the
puzzle has exactly two completions. -/
def rectPuzzle : String :=
  ".34.56789.89.37456567489123875394261392561874416872395923648517748915632651723948"

/-- The second completion of `rectPuzzle` (values 2/1, 1/2 on the rectangle). -/
def rectSolutionB : String :=
  "234156789189237456567489123875394261392561874416872395923648517748915632651723948"

/-- A structurally valid puzzle string with the digit 1 twice in row 0. -/
def duplicateRowPuzzle : String :=
  "11..............................................................................."

/-- A string of length 80 that also contains an invalid character. -/
def shortBadPuzzle : String :=
  "x..............................................................................."

/-- A random oracle that always returns 0. -/
def oracleA : Nat → Nat := fun _ => 0

/-- A random oracle that returns 1 on the second draw and 0 otherwise. -/
def oracleB : Nat → Nat := fun k => if k == 1 then 1 else 0

end SudokuSolver

namespace SudokuSolver

/-! ### Generic list helpers -/

theorem contains_iff (l : List Cell) (x : Cell) : l.contains x = true ↔ x ∈ l :=
  List.elem_iff

theorem contains_false (l : List Cell) (x : Cell) (h : x ∉ l) : l.contains x = false := by
  rw [Bool.eq_false_iff]
  intro hc
  exact h ((contains_iff l x).mp hc)

theorem getD_set_ne {α : Type} (l : List α) (i j : Nat) (a : α) (d : α) (h : i ≠ j) :
    (l.set i a).getD j d = l.getD j d := by
  rw [List.getD_eq_getElem?_getD, List.getD_eq_getElem?_getD, List.getElem?_set_ne h]

theorem getD_set_self {α : Type} (l : List α) (i : Nat) (a : α) (d : α) (h : i < l.length) :
    (l.set i a).getD i d = a := by
  rw [List.getD_eq_getElem?_getD]
  simp [List.getElem?_set_self, h]

theorem set_getD_self {α : Type} : ∀ (l : List α) (i : Nat) (d : α), l.set i (l.getD i d) = l
  | [], _, _ => rfl
  | _ :: _, 0, _ => rfl
  | a :: l, i + 1, d => by
    have ih := set_getD_self l i d
    simp only [List.set, List.getD_cons_succ]
    rw [ih]

theorem getD_mem_or {α : Type} (l : List α) (n : Nat) (d : α) :
    l.getD n d ∈ l ∨ l.getD n d = d := by
  rcases Nat.lt_or_ge n l.length with h | h
  · left
    rw [List.getD_eq_getElem l d h]
    exact l.getElem_mem h
  · right
    exact List.getD_eq_default l d h

theorem all_set {α : Type} (l : List α) (p : α → Bool) (i : Nat) (a : α)
    (hl : l.all p = true) (ha : p a = true) : (l.set i a).all p = true := by
  rw [List.all_eq_true] at hl ⊢
  intro x hx
  rcases List.mem_or_eq_of_mem_set hx with h | h
  · exact hl x h
  · exact h ▸ ha

theorem len3_ext {α : Type} (d : α) : ∀ (l : List α), l.length = 3 →
    l = [l.getD 0 d, l.getD 1 d, l.getD 2 d]
  | [_, _, _], _ => rfl

/-- Flattening three rows of three cells lists the nine entries. -/
theorem flatten3 {α : Type} (d : α) (Y0 Y1 Y2 : List α)
    (h0 : Y0.length = 3) (h1 : Y1.length = 3) (h2 : Y2.length = 3) :
    Y0 ++ (Y1 ++ (Y2 ++ ([] : List α))) =
      [Y0.getD 0 d, Y0.getD 1 d, Y0.getD 2 d, Y1.getD 0 d, Y1.getD 1 d, Y1.getD 2 d,
       Y2.getD 0 d, Y2.getD 1 d, Y2.getD 2 d] := by
  rw [len3_ext d Y0 h0, len3_ext d Y1 h1, len3_ext d Y2 h2]
  rfl

/-! ### JS set semantics -/

theorem mem_jsSet_aux (l : List Cell) : ∀ (acc : List Cell) (x : Cell),
    (x ∈ l.foldl (fun acc x => if acc.contains x then acc else acc ++ [x]) acc ↔
      x ∈ acc ∨ x ∈ l) := by
  induction l with
  | nil => simp
  | cons a l ih =>
    intro acc x
    simp only [List.foldl_cons]
    rw [ih]
    by_cases ha : a ∈ acc
    · rw [if_pos ((contains_iff acc a).mpr ha)]
      simp only [List.mem_cons]
      constructor
      · rintro (h | h)
        · exact Or.inl h
        · exact Or.inr (Or.inr h)
      · rintro (h | h | h)
        · exact Or.inl h
        · exact Or.inl (h ▸ ha)
        · exact Or.inr h
    · rw [if_neg (by rw [contains_false acc a ha]; exact Bool.false_ne_true)]
      simp only [List.mem_append, List.mem_singleton, List.mem_cons]
      tauto

theorem mem_jsSet (l : List Cell) (x : Cell) : x ∈ jsSet l ↔ x ∈ l := by
  unfold jsSet
  rw [mem_jsSet_aux]
  simp

theorem nodup_jsSet_aux (l : List Cell) : ∀ (acc : List Cell), acc.Nodup →
    (l.foldl (fun acc x => if acc.contains x then acc else acc ++ [x]) acc).Nodup := by
  induction l with
  | nil => intro acc h; simpa using h
  | cons a l ih =>
    intro acc h
    simp only [List.foldl_cons]
    by_cases ha : a ∈ acc
    · rw [if_pos ((contains_iff acc a).mpr ha)]
      exact ih acc h
    · rw [if_neg (by rw [contains_false acc a ha]; exact Bool.false_ne_true)]
      refine ih _ ?_
      rw [List.nodup_append]
      exact ⟨h, List.nodup_singleton a,
        fun x hx hxa => ha ((List.mem_singleton.mp hxa) ▸ hx)⟩

theorem nodup_jsSet (l : List Cell) : (jsSet l).Nodup :=
  nodup_jsSet_aux l [] List.nodup_nil

theorem mem_setDelete (s : List Cell) (v x : Cell) :
    x ∈ setDelete s v ↔ x ∈ s ∧ x ≠ v := by
  unfold setDelete
  rw [List.mem_filter]
  simp [bne]

theorem nodup_setDelete (s : List Cell) (v : Cell) (h : s.Nodup) : (setDelete s v).Nodup :=
  List.Nodup.filter _ h

/-- Membership in the fold at the heart of `symmetricDifference`, provided the
second operand is duplicate-free. -/
theorem mem_sdFold : ∀ (bs : List Cell), bs.Nodup → ∀ (d : List Cell) (x : Cell),
    (x ∈ bs.foldl (fun d e => if d.contains e then setDelete d e else d ++ [e]) d ↔
      (x ∈ d ∧ x ∉ bs) ∨ (x ∉ d ∧ x ∈ bs)) := by
  intro bs
  induction bs with
  | nil => simp
  | cons e bs ih =>
    intro hnd d x
    have hnd' : bs.Nodup := (List.nodup_cons.mp hnd).2
    have he : e ∉ bs := (List.nodup_cons.mp hnd).1
    simp only [List.foldl_cons]
    rw [ih hnd']
    by_cases hd : e ∈ d
    · rw [if_pos ((contains_iff d e).mpr hd)]
      simp only [mem_setDelete, List.mem_cons]
      by_cases hx : x = e <;> simp only [hx] <;> tauto
    · rw [if_neg (by rw [contains_false d e hd]; exact Bool.false_ne_true)]
      simp only [List.mem_append, List.mem_singleton, List.mem_cons]
      by_cases hx : x = e <;> simp only [hx] <;> tauto

theorem mem_symmetricDifference (a b : List Cell) (hb : b.Nodup) (x : Cell) :
    x ∈ symmetricDifference a b ↔ (x ∈ a ∧ x ∉ b) ∨ (x ∉ a ∧ x ∈ b) := by
  unfold symmetricDifference
  rw [mem_sdFold b hb (jsSet a) x, mem_jsSet]

theorem completedSet_nodup : completedSet.Nodup := by decide

theorem mem_completedSet (v : Nat) : some v ∈ completedSet ↔ 1 ≤ v ∧ v ≤ 9 := by
  simp only [completedSet, List.mem_cons, List.not_mem_nil, or_false, Option.some.injEq]
  omega

theorem none_not_mem_completedSet : (none : Cell) ∉ completedSet := by decide

/-- Empty symmetric difference means the two sets have the same members. -/
theorem symmetricDifference_nil (a b : List Cell) (hb : b.Nodup)
    (h : symmetricDifference a b = []) (x : Cell) : x ∈ a ↔ x ∈ b := by
  have hx := mem_symmetricDifference a b hb x
  rw [h] at hx
  simp only [List.not_mem_nil, false_iff] at hx
  constructor
  · intro h1
    by_contra h2
    exact hx (Or.inl ⟨h1, h2⟩)
  · intro h1
    by_contra h2
    exact hx (Or.inr ⟨h2, h1⟩)

end SudokuSolver

namespace SudokuSolver

/-! ### Index arithmetic -/

/-- Bounds of the three nested indices for a flat index below 81. -/
theorem index_bounds : ∀ i < 81, regionIndex i < 9 ∧ regionRowIndex i < 3 ∧
    regionRowCellIndex i < 3 := by decide

set_option maxRecDepth 4000 in
/-- The nested-index triple determines the flat index below 81. -/
theorem triple_inj : ∀ i < 81, ∀ j < 81,
    regionIndex i = regionIndex j → regionRowIndex i = regionRowIndex j →
    regionRowCellIndex i = regionRowCellIndex j → i = j := by decide

theorem regionMemberIndex_spec : ∀ q < 9, ∀ t < 9,
    regionMemberIndex q t < 81 ∧ regionIndex (regionMemberIndex q t) = q ∧
    regionRowIndex (regionMemberIndex q t) = t / 3 ∧
    regionRowCellIndex (regionMemberIndex q t) = t % 3 := by decide

theorem flatIndex_spec : ∀ q < 9, ∀ r < 3, ∀ c < 3,
    flatIndex q r c < 81 ∧ regionIndex (flatIndex q r c) = q ∧
    regionRowIndex (flatIndex q r c) = r ∧ regionRowCellIndex (flatIndex q r c) = c := by decide

/-! ### Shape facts -/

theorem shapeOK_length (b : Board) (h : shapeOK b = true) : b.length = 9 := by
  unfold shapeOK at h
  simp only [Bool.and_eq_true, beq_iff_eq] at h
  exact h.1

theorem shapeOK_region_length (b : Board) (h : shapeOK b = true) (q : Nat) (hq : q < 9) :
    (b.getD q []).length = 3 := by
  unfold shapeOK at h
  simp only [Bool.and_eq_true, beq_iff_eq, List.all_eq_true] at h
  have hb : q < b.length := by rw [h.1]; exact hq
  rw [List.getD_eq_getElem b [] hb]
  exact ((h.2 b[q] (b.getElem_mem hb)).1)

theorem shapeOK_row_length (b : Board) (h : shapeOK b = true) (q r : Nat)
    (hq : q < 9) (hr : r < 3) : ((b.getD q []).getD r []).length = 3 := by
  have hrl := shapeOK_region_length b h q hq
  unfold shapeOK at h
  simp only [Bool.and_eq_true, beq_iff_eq, List.all_eq_true] at h
  have hb : q < b.length := by rw [h.1]; exact hq
  have hreg := (h.2 b[q] (b.getElem_mem hb)).2
  rw [List.getD_eq_getElem b [] hb] at hrl ⊢
  have hr' : r < b[q].length := by rw [hrl]; exact hr
  rw [List.getD_eq_getElem b[q] [] hr']
  exact hreg b[q][r] (List.getElem_mem hr')

/-! ### Read and write -/

theorem readBoard_getElem (b : Board) (i : Nat)
    (hq : regionIndex i < b.length)
    (hr : regionRowIndex i < b[regionIndex i].length)
    (hc : regionRowCellIndex i < b[regionIndex i][regionRowIndex i].length) :
    readBoard b i = b[regionIndex i][regionRowIndex i][regionRowCellIndex i] := by
  unfold readBoard
  rw [List.getD_eq_getElem b [] hq, List.getD_eq_getElem _ [] hr, List.getD_eq_getElem _ none hc]

theorem write_read_self (b : Board) (i : Nat) : writeBoard b i (readBoard b i) = b := by
  simp only [writeBoard, readBoard]
  rw [set_getD_self, set_getD_self, set_getD_self]

theorem write_write (b : Board) (i : Nat) (x y : Cell) :
    writeBoard (writeBoard b i x) i y = writeBoard b i y := by
  simp only [writeBoard]
  rcases Nat.lt_or_ge (regionIndex i) b.length with hq | hq
  · rw [getD_set_self _ _ _ _ hq, List.set_set]
    rcases Nat.lt_or_ge (regionRowIndex i) (List.getD b (regionIndex i) []).length with hr | hr
    · rw [getD_set_self _ _ _ _ hr, List.set_set, List.set_set]
    · simp only [List.set_eq_of_length_le hr]
  · simp only [List.set_eq_of_length_le hq]

theorem read_write_self (b : Board) (i : Nat) (v : Cell) (hs : shapeOK b = true) (hi : i < 81) :
    readBoard (writeBoard b i v) i = v := by
  obtain ⟨hq, hr, hc⟩ := index_bounds i hi
  have hbq : regionIndex i < b.length := by rw [shapeOK_length b hs]; exact hq
  have hbr : regionRowIndex i < (b.getD (regionIndex i) []).length := by
    rw [shapeOK_region_length b hs _ hq]; exact hr
  have hbc : regionRowCellIndex i <
      ((b.getD (regionIndex i) []).getD (regionRowIndex i) []).length := by
    rw [shapeOK_row_length b hs _ _ hq hr]; exact hc
  simp only [writeBoard, readBoard]
  rw [getD_set_self _ _ _ _ hbq, getD_set_self _ _ _ _ hbr, getD_set_self _ _ _ _ hbc]

theorem read_write_ne (b : Board) (i j : Nat) (v : Cell) (hi : i < 81) (hj : j < 81)
    (hne : i ≠ j) : readBoard (writeBoard b j v) i = readBoard b i := by
  simp only [writeBoard, readBoard]
  by_cases hq : regionIndex j = regionIndex i
  · rw [← hq]
    rcases Nat.lt_or_ge (regionIndex j) b.length with hbq | hbq
    · rw [getD_set_self _ _ _ _ hbq]
      by_cases hr : regionRowIndex j = regionRowIndex i
      · rw [← hr]
        have hc : regionRowCellIndex j ≠ regionRowCellIndex i := by
          intro hc
          exact hne (triple_inj i hi j hj hq.symm hr.symm hc.symm)
        rcases Nat.lt_or_ge (regionRowIndex j) ((b.getD (regionIndex j) []).length)
            with hbr | hbr
        · rw [getD_set_self _ _ _ _ hbr, getD_set_ne _ _ _ _ _ hc]
        · rw [List.set_eq_of_length_le hbr]
      · rw [getD_set_ne _ _ _ _ _ hr]
    · rw [List.set_eq_of_length_le hbq]
  · rw [getD_set_ne _ _ _ _ _ hq]

end SudokuSolver

namespace SudokuSolver

/-! ### Invariant preservation -/

theorem shapeOK_write (b : Board) (i : Nat) (v : Cell) (hs : shapeOK b = true) :
    shapeOK (writeBoard b i v) = true := by
  rcases Nat.lt_or_ge (regionIndex i) b.length with hq | hq
  · have hsreg := shapeOK_region_length b hs (regionIndex i)
      (by rw [← shapeOK_length b hs]; exact hq)
    unfold shapeOK at hs ⊢
    simp only [Bool.and_eq_true, beq_iff_eq, List.all_eq_true] at hs ⊢
    simp only [writeBoard, List.length_set]
    refine ⟨hs.1, ?_⟩
    intro reg hreg
    rcases List.mem_or_eq_of_mem_set hreg with h | h
    · exact hs.2 reg h
    · subst h
      have hmem : b.getD (regionIndex i) [] ∈ b := by
        rw [List.getD_eq_getElem b [] hq]
        exact b.getElem_mem hq
      have hbase := hs.2 _ hmem
      rcases Nat.lt_or_ge (regionRowIndex i) (b.getD (regionIndex i) []).length with hr | hr
      · constructor
        · simpa using hbase.1
        · intro r hrmem
          rcases List.mem_or_eq_of_mem_set hrmem with h2 | h2
          · exact hbase.2 r h2
          · subst h2
            have hrowmem : (b.getD (regionIndex i) []).getD (regionRowIndex i) [] ∈
                b.getD (regionIndex i) [] := by
              rw [List.getD_eq_getElem _ [] hr]
              exact List.getElem_mem hr
            simpa using hbase.2 _ hrowmem
      · rw [List.set_eq_of_length_le hr]
        exact hbase
  · unfold writeBoard
    rw [List.set_eq_of_length_le hq]
    exact hs

theorem shapeOK_setCell (b : Board) (row column : Nat) (v : Cell) (hs : shapeOK b = true) :
    shapeOK (setCell b row column v) = true := by
  unfold setCell
  match v with
  | none => exact shapeOK_write b _ none hs
  | some w =>
    by_cases h1 : 1 ≤ w
    · simpa [h1] using shapeOK_write b _ (some w) hs
    · simpa [h1] using hs

theorem shapeOK_emptyBoard : shapeOK emptyBoard = true := by decide

/-! ### Well-formed board cell values -/

theorem cellOK_read (b : Board) (i : Nat) (hw : wfBoard b = true) :
    cellOK (readBoard b i) = true := by
  unfold wfBoard at hw
  simp only [Bool.and_eq_true, List.all_eq_true] at hw
  unfold readBoard
  rcases getD_mem_or b (regionIndex i) [] with hm | hm
  · rcases getD_mem_or (b.getD (regionIndex i) []) (regionRowIndex i) [] with hm2 | hm2
    · rcases getD_mem_or ((b.getD (regionIndex i) []).getD (regionRowIndex i) [])
          (regionRowCellIndex i) none with hm3 | hm3
      · exact hw.2 _ hm _ hm2 _ hm3
      · rw [hm3]; rfl
    · rw [hm2]; rfl
  · rw [hm]; rfl

theorem cellOK_shape : ∀ (c : Cell), cellOK c = true →
    c = none ∨ ∃ v, c = some v ∧ 1 ≤ v ∧ v ≤ 9 := by
  intro c hc
  match c with
  | none => exact Or.inl rfl
  | some v =>
    refine Or.inr ⟨v, rfl, ?_⟩
    unfold cellOK at hc
    simp only [Bool.and_eq_true, decide_eq_true_eq] at hc
    exact hc

theorem not_truthy_eq_none (c : Cell) (hc : cellOK c = true) (ht : truthy c = false) :
    c = none := by
  rcases cellOK_shape c hc with h | ⟨v, hv, h1, _⟩
  · exact h
  · subst hv
    unfold truthy at ht
    simp only [bne_eq_false_iff_eq] at ht
    omega

theorem truthy_some (c : Cell) (hc : cellOK c = true) (ht : truthy c = true) :
    ∃ v, c = some v ∧ 1 ≤ v ∧ v ≤ 9 := by
  rcases cellOK_shape c hc with h | h
  · subst h; simp [truthy] at ht
  · exact h

theorem wfBoard_shape (b : Board) (hw : wfBoard b = true) : shapeOK b = true := by
  unfold wfBoard at hw
  simp only [Bool.and_eq_true] at hw
  exact hw.1

theorem wfBoard_write (b : Board) (i : Nat) (v : Cell) (hw : wfBoard b = true)
    (hv : cellOK v = true) : wfBoard (writeBoard b i v) = true := by
  unfold wfBoard at hw ⊢
  simp only [Bool.and_eq_true] at hw ⊢
  refine ⟨shapeOK_write b i v hw.1, ?_⟩
  have hcells := hw.2
  simp only [List.all_eq_true] at hcells ⊢
  intro reg hreg
  simp only [writeBoard] at hreg
  rcases List.mem_or_eq_of_mem_set hreg with h | h
  · exact hcells reg h
  · subst h
    intro r hrmem
    rcases List.mem_or_eq_of_mem_set hrmem with h2 | h2
    · rcases getD_mem_or b (regionIndex i) [] with hm | hm
      · exact hcells _ hm r h2
      · rw [hm] at h2; cases h2
    · subst h2
      intro c hcmem
      rcases List.mem_or_eq_of_mem_set hcmem with h3 | h3
      · rcases getD_mem_or b (regionIndex i) [] with hm | hm
        · rcases getD_mem_or (b.getD (regionIndex i) []) (regionRowIndex i) [] with hm2 | hm2
          · exact hcells _ hm _ hm2 c h3
          · rw [hm2] at h3; cases h3
        · rw [hm] at h3
          simp at h3
      · exact h3 ▸ hv

end SudokuSolver


namespace SudokuSolver

/-! ### Views as flat reads -/

theorem rowView (b : Board) (row : Nat) (hs : shapeOK b = true) (hrow : row < 9) :
    getBoardRow b row = (List.range 9).map (fun c => readBoard b (row * 9 + c)) := by
  have h3 := shapeOK_row_length b hs
  interval_cases row
  · exact (flatten3 none _ _ _ (h3 0 0 (by omega) (by omega)) (h3 1 0 (by omega) (by omega))
      (h3 2 0 (by omega) (by omega))).trans rfl
  · exact (flatten3 none _ _ _ (h3 0 1 (by omega) (by omega)) (h3 1 1 (by omega) (by omega))
      (h3 2 1 (by omega) (by omega))).trans rfl
  · exact (flatten3 none _ _ _ (h3 0 2 (by omega) (by omega)) (h3 1 2 (by omega) (by omega))
      (h3 2 2 (by omega) (by omega))).trans rfl
  · exact (flatten3 none _ _ _ (h3 3 0 (by omega) (by omega)) (h3 4 0 (by omega) (by omega))
      (h3 5 0 (by omega) (by omega))).trans rfl
  · exact (flatten3 none _ _ _ (h3 3 1 (by omega) (by omega)) (h3 4 1 (by omega) (by omega))
      (h3 5 1 (by omega) (by omega))).trans rfl
  · exact (flatten3 none _ _ _ (h3 3 2 (by omega) (by omega)) (h3 4 2 (by omega) (by omega))
      (h3 5 2 (by omega) (by omega))).trans rfl
  · exact (flatten3 none _ _ _ (h3 6 0 (by omega) (by omega)) (h3 7 0 (by omega) (by omega))
      (h3 8 0 (by omega) (by omega))).trans rfl
  · exact (flatten3 none _ _ _ (h3 6 1 (by omega) (by omega)) (h3 7 1 (by omega) (by omega))
      (h3 8 1 (by omega) (by omega))).trans rfl
  · exact (flatten3 none _ _ _ (h3 6 2 (by omega) (by omega)) (h3 7 2 (by omega) (by omega))
      (h3 8 2 (by omega) (by omega))).trans rfl

theorem regionFlattenView (b : Board) (q : Nat) (hs : shapeOK b = true) (hq : q < 9) :
    (b.getD q []).flatten = (List.range 9).map (fun t => readBoard b (regionMemberIndex q t)) := by
  have h3 := shapeOK_row_length b hs
  have hlen := shapeOK_region_length b hs q hq
  interval_cases q <;>
    rw [len3_ext ([] : List Cell) _ hlen] <;>
    [exact (flatten3 none _ _ _ (h3 0 0 (by omega) (by omega)) (h3 0 1 (by omega) (by omega))
      (h3 0 2 (by omega) (by omega))).trans rfl;
     exact (flatten3 none _ _ _ (h3 1 0 (by omega) (by omega)) (h3 1 1 (by omega) (by omega))
      (h3 1 2 (by omega) (by omega))).trans rfl;
     exact (flatten3 none _ _ _ (h3 2 0 (by omega) (by omega)) (h3 2 1 (by omega) (by omega))
      (h3 2 2 (by omega) (by omega))).trans rfl;
     exact (flatten3 none _ _ _ (h3 3 0 (by omega) (by omega)) (h3 3 1 (by omega) (by omega))
      (h3 3 2 (by omega) (by omega))).trans rfl;
     exact (flatten3 none _ _ _ (h3 4 0 (by omega) (by omega)) (h3 4 1 (by omega) (by omega))
      (h3 4 2 (by omega) (by omega))).trans rfl;
     exact (flatten3 none _ _ _ (h3 5 0 (by omega) (by omega)) (h3 5 1 (by omega) (by omega))
      (h3 5 2 (by omega) (by omega))).trans rfl;
     exact (flatten3 none _ _ _ (h3 6 0 (by omega) (by omega)) (h3 6 1 (by omega) (by omega))
      (h3 6 2 (by omega) (by omega))).trans rfl;
     exact (flatten3 none _ _ _ (h3 7 0 (by omega) (by omega)) (h3 7 1 (by omega) (by omega))
      (h3 7 2 (by omega) (by omega))).trans rfl;
     exact (flatten3 none _ _ _ (h3 8 0 (by omega) (by omega)) (h3 8 1 (by omega) (by omega))
      (h3 8 2 (by omega) (by omega))).trans rfl]

theorem regionIndex_lt (row column : Nat) (hrow : row < 9) (hcol : column < 9) :
    regionIndex (row * 9 + column) < 9 :=
  (index_bounds (row * 9 + column) (by omega)).1

theorem regionView (b : Board) (row column : Nat) (hs : shapeOK b = true)
    (hrow : row < 9) (hcol : column < 9) :
    getBoardRegion b row column = (List.range 9).map
      (fun t => readBoard b (regionMemberIndex (regionIndex (row * 9 + column)) t)) :=
  regionFlattenView b (regionIndex (row * 9 + column)) hs (regionIndex_lt row column hrow hcol)

theorem colView (b : Board) (column : Nat) :
    getBoardColumn b column = (List.range 9).map (fun row => readBoard b (row * 9 + column)) :=
  rfl

/-! ### Board extensionality -/

theorem board_ext (b b' : Board) (hs : shapeOK b = true) (hs' : shapeOK b' = true)
    (h : ∀ i, i < 81 → readBoard b i = readBoard b' i) : b = b' := by
  have hl : b.length = 9 := shapeOK_length b hs
  have hl' : b'.length = 9 := shapeOK_length b' hs'
  apply List.ext_getElem (by rw [hl, hl'])
  intro q hq hq'
  have hq9 : q < 9 := by omega
  have hrl : b[q].length = 3 := by
    have := shapeOK_region_length b hs q hq9
    rwa [List.getD_eq_getElem b [] hq] at this
  have hrl' : b'[q].length = 3 := by
    have := shapeOK_region_length b' hs' q hq9
    rwa [List.getD_eq_getElem b' [] hq'] at this
  apply List.ext_getElem (by rw [hrl, hrl'])
  intro r hr hr'
  have hr3 : r < 3 := by omega
  have hcl : b[q][r].length = 3 := by
    have := shapeOK_row_length b hs q r hq9 hr3
    rwa [List.getD_eq_getElem b [] hq, List.getD_eq_getElem _ [] hr] at this
  have hcl' : b'[q][r].length = 3 := by
    have := shapeOK_row_length b' hs' q r hq9 hr3
    rwa [List.getD_eq_getElem b' [] hq', List.getD_eq_getElem _ [] hr'] at this
  apply List.ext_getElem (by rw [hcl, hcl'])
  intro c hc hc'
  have hc3 : c < 3 := by omega
  obtain ⟨hfi, hfq, hfr, hfc⟩ := flatIndex_spec q hq9 r hr3 c hc3
  have hread : readBoard b (flatIndex q r c) = b[q][r][c] := by
    unfold readBoard
    rw [hfq, hfr, hfc, List.getD_eq_getElem b [] hq, List.getD_eq_getElem _ [] hr,
      List.getD_eq_getElem _ none hc]
  have hread' : readBoard b' (flatIndex q r c) = b'[q][r][c] := by
    unfold readBoard
    rw [hfq, hfr, hfc, List.getD_eq_getElem b' [] hq', List.getD_eq_getElem _ [] hr',
      List.getD_eq_getElem _ none hc']
  rw [← hread, ← hread']
  exact h (flatIndex q r c) hfi

end SudokuSolver

namespace SudokuSolver

/-! ### The clear-and-restore pattern restores the board exactly -/

theorem gvpv_board (b : Board) (row column : Nat) (mode : Bool) (hw : wfBoard b = true) :
    (getValidPossibleValues b row column mode).2 = b := by
  have hok := cellOK_read b (row * 9 + column) hw
  simp only [getValidPossibleValues, getValidPossibleValuesTail, getCell, removeCell, setCell]
  rcases cellOK_shape _ hok with hcv | ⟨v, hcv, h1, _⟩
  · rw [hcv]
    by_cases hm : mode
    · simp only [hm, if_true]
      rw [write_write, ← hcv, write_read_self]
    · simp only [hm, if_false, truthy, Bool.false_eq_true, ← hcv, write_read_self]
  · rw [hcv]
    by_cases hm : mode
    · simp only [hm, if_true, h1, if_pos]
      rw [write_write, ← hcv, write_read_self]
    · have ht : truthy (some v) = true := by
        unfold truthy
        simp only [bne_iff_ne, ne_eq]
        omega
      simp [hm, ht]

theorem gvpv_shape (b : Board) (row column : Nat) (mode : Bool) (hs : shapeOK b = true) :
    shapeOK (getValidPossibleValues b row column mode).2 = true := by
  simp only [getValidPossibleValues, getValidPossibleValuesTail, removeCell]
  by_cases hm : mode
  · simp only [hm, if_true]
    exact shapeOK_setCell _ _ _ _ (shapeOK_write b _ none hs)
  · by_cases ht : truthy (getCell b row column)
    · simp only [hm, ht, if_true, if_false]
      exact hs
    · simp only [hm, ht, if_false]
      exact shapeOK_setCell _ _ _ _ hs

theorem isValidBoardFrom_board : ∀ (fuel : Nat) (b : Board) (i : Nat),
    wfBoard b = true → (isValidBoardFrom b i fuel).2 = b := by
  intro fuel
  induction fuel with
  | zero => intro b i _; rfl
  | succ n ih =>
    intro b i hw
    simp only [isValidBoardFrom]
    have hb := gvpv_board b (boardRowIndex i) (boardColumnIndex i) true hw
    by_cases hcond : truthy (getCell b (boardRowIndex i) (boardColumnIndex i)) &&
        !((getValidPossibleValues b (boardRowIndex i) (boardColumnIndex i)
          true).1.contains (getCell b (boardRowIndex i) (boardColumnIndex i)))
    · simp only [hcond, if_true]
      exact hb
    · simp only [hcond, if_false]
      rw [hb]
      exact ih b (i + 1) hw

theorem isValidBoard_board (b : Board) (hw : wfBoard b = true) : (isValidBoard b).2 = b :=
  isValidBoardFrom_board 81 b 0 hw

theorem isBoardSolved_board (b : Board) (hw : wfBoard b = true) : (isBoardSolved b).2 = b := by
  unfold isBoardSolved
  exact isValidBoard_board b hw

theorem isValidBoardFrom_shape : ∀ (fuel : Nat) (b : Board) (i : Nat),
    shapeOK b = true → shapeOK (isValidBoardFrom b i fuel).2 = true := by
  intro fuel
  induction fuel with
  | zero => intro b i hs; exact hs
  | succ n ih =>
    intro b i hs
    simp only [isValidBoardFrom]
    have hb := gvpv_shape b (boardRowIndex i) (boardColumnIndex i) true hs
    by_cases hcond : truthy (getCell b (boardRowIndex i) (boardColumnIndex i)) &&
        !((getValidPossibleValues b (boardRowIndex i) (boardColumnIndex i)
          true).1.contains (getCell b (boardRowIndex i) (boardColumnIndex i)))
    · simp only [hcond, if_true]
      exact hb
    · simp only [hcond, if_false]
      exact ih _ (i + 1) hb

theorem isBoardSolved_shape (b : Board) (hs : shapeOK b = true) :
    shapeOK (isBoardSolved b).2 = true := by
  unfold isBoardSolved isValidBoard
  exact isValidBoardFrom_shape 81 b 0 hs

theorem scanFrom_board : ∀ (fuel : Nat) (b : Board) (i : Nat) (cells : List Frame) (nvv : Nat),
    wfBoard b = true → (scanFrom b i cells nvv fuel).2 = b := by
  intro fuel
  induction fuel with
  | zero => intro b i cells nvv _; rfl
  | succ n ih =>
    intro b i cells nvv hw
    simp only [scanFrom]
    have hb := gvpv_board b (boardRowIndex i) (boardColumnIndex i) false hw
    by_cases ht : truthy (getCell b (boardRowIndex i) (boardColumnIndex i))
    · simp only [ht, if_true]
      exact ih b (i + 1) cells nvv hw
    · simp only [ht, if_false]
      by_cases hle : (getValidPossibleValues b (boardRowIndex i) (boardColumnIndex i)
          false).1.length ≤ nvv
      · simp only [hle, if_pos]
        rw [hb]
        exact ih b (i + 1) _ _ hw
      · simp only [hle, if_neg, if_false]
        rw [hb]
        exact ih b (i + 1) cells nvv hw

theorem scanFrom_shape : ∀ (fuel : Nat) (b : Board) (i : Nat) (cells : List Frame) (nvv : Nat),
    shapeOK b = true → shapeOK (scanFrom b i cells nvv fuel).2 = true := by
  intro fuel
  induction fuel with
  | zero => intro b i cells nvv hs; exact hs
  | succ n ih =>
    intro b i cells nvv hs
    simp only [scanFrom]
    have hb := gvpv_shape b (boardRowIndex i) (boardColumnIndex i) false hs
    by_cases ht : truthy (getCell b (boardRowIndex i) (boardColumnIndex i))
    · simp only [ht, if_true]
      exact ih b (i + 1) cells nvv hs
    · simp only [ht, if_false]
      by_cases hle : (getValidPossibleValues b (boardRowIndex i) (boardColumnIndex i)
          false).1.length ≤ nvv
      · simp only [hle, if_pos]
        exact ih _ (i + 1) _ _ hb
      · simp only [hle, if_neg, if_false]
        exact ih _ (i + 1) cells nvv hb

theorem setCells_shape : ∀ (l : List Char) (b : Board) (i : Nat), shapeOK b = true →
    shapeOK (setCells b i l) = true := by
  intro l
  induction l with
  | nil => intro b i hs; exact hs
  | cons d rest ih =>
    intro b i hs
    exact ih _ (i + 1) (shapeOK_write b i _ hs)

theorem setBoardFromString_shape (b : Board) (s : String) (hs : shapeOK b = true) :
    shapeOK (setBoardFromString b s) = true := by
  unfold setBoardFromString
  by_cases h : isValidPuzzleString s
  · simp only [h, if_true]
    exact setCells_shape s.data b 0 hs
  · simp only [h, if_false]
    exact hs

end SudokuSolver

namespace SudokuSolver

/-! ### Cell values appearing in the three constraint views -/

theorem cellOK_of_mem_inner (b : Board) (hw : wfBoard b = true) (q r : Nat) :
    ∀ x ∈ (b.getD q []).getD r [], cellOK x = true := by
  intro x hx
  unfold wfBoard at hw
  simp only [Bool.and_eq_true, List.all_eq_true] at hw
  rcases getD_mem_or b q [] with hm | hm
  · rcases getD_mem_or (b.getD q []) r [] with hm2 | hm2
    · exact hw.2 _ hm _ hm2 x hx
    · rw [hm2] at hx
      cases hx
  · rw [hm] at hx
    simp at hx

theorem cellOK_of_mem_region (b : Board) (row column : Nat) (hw : wfBoard b = true) :
    ∀ x ∈ getBoardRegion b row column, cellOK x = true := by
  intro x hx
  unfold getBoardRegion at hx
  rw [List.mem_flatten] at hx
  obtain ⟨l, hl, hxl⟩ := hx
  rcases getD_mem_or b (regionIndex (row * 9 + column)) [] with hm | hm
  · unfold wfBoard at hw
    simp only [Bool.and_eq_true, List.all_eq_true] at hw
    exact hw.2 _ hm l hl x hxl
  · rw [hm] at hl
    cases hl

theorem cellOK_of_mem_row (b : Board) (row : Nat) (hw : wfBoard b = true) :
    ∀ x ∈ getBoardRow b row, cellOK x = true := by
  intro x hx
  unfold getBoardRow at hx
  rw [List.mem_flatten] at hx
  obtain ⟨l, hl, hxl⟩ := hx
  rw [List.mem_map] at hl
  obtain ⟨off, _, hoff⟩ := hl
  subst hoff
  exact cellOK_of_mem_inner b hw _ _ x hxl

theorem cellOK_of_mem_column (b : Board) (column : Nat) (hw : wfBoard b = true) :
    ∀ x ∈ getBoardColumn b column, cellOK x = true := by
  intro x hx
  unfold getBoardColumn at hx
  rw [List.mem_map] at hx
  obtain ⟨r, _, hr⟩ := hx
  subst hr
  exact cellOK_read b _ hw

/-! ### Characterization of the candidate computation -/

theorem gvpvTail_mem (b : Board) (row column : Nat) (cv : Cell) (hw : wfBoard b = true)
    (x : Cell) :
    x ∈ (getValidPossibleValuesTail b row column cv).1 ↔
      x ∈ completedSet ∧ ¬(x ∈ getBoardRegion b row column ∨ x ∈ getBoardRow b row ∨
        x ∈ getBoardColumn b column) := by
  have hA : ∀ y, y ∈ setDelete (jsSet [getBoardRegion b row column, getBoardRow b row,
      getBoardColumn b column].flatten) none ↔
      (y ∈ getBoardRegion b row column ∨ y ∈ getBoardRow b row ∨ y ∈ getBoardColumn b column) ∧
        y ≠ none := by
    intro y
    rw [mem_setDelete, mem_jsSet]
    simp [List.mem_append]
  have hsub : ∀ y, y ∈ setDelete (jsSet [getBoardRegion b row column, getBoardRow b row,
      getBoardColumn b column].flatten) none → y ∈ completedSet := by
    intro y hy
    rw [hA] at hy
    have hok : cellOK y = true := by
      rcases hy.1 with h | h | h
      · exact cellOK_of_mem_region b row column hw y h
      · exact cellOK_of_mem_row b row hw y h
      · exact cellOK_of_mem_column b column hw y h
    rcases cellOK_shape y hok with h | ⟨v, hv, h1, h9⟩
    · exact absurd h hy.2
    · rw [hv, mem_completedSet]
      exact ⟨h1, h9⟩
  unfold getValidPossibleValuesTail
  rw [mem_symmetricDifference _ _ completedSet_nodup]
  constructor
  · rintro (⟨hin, hnc⟩ | ⟨hnin, hc⟩)
    · exact absurd (hsub x hin) hnc
    · refine ⟨hc, ?_⟩
      intro habs
      apply hnin
      rw [hA]
      refine ⟨habs, ?_⟩
      intro hx
      rw [hx] at hc
      exact none_not_mem_completedSet hc
  · rintro ⟨hc, hnv⟩
    right
    refine ⟨?_, hc⟩
    intro hin
    exact hnv ((hA x).mp hin).1

/-- Candidate elements always lie in `completedSet` (on a well-formed board). -/
theorem gvpvTail_subset (b : Board) (row column : Nat) (cv : Cell) (hw : wfBoard b = true) :
    ∀ x ∈ (getValidPossibleValuesTail b row column cv).1, x ∈ completedSet := by
  intro x hx
  exact ((gvpvTail_mem b row column cv hw x).mp hx).1

theorem isValidValue_char (L : List Cell) (hL : ∀ x ∈ L, cellOK x = true) (v : Nat) :
    isValidValue L v = true ↔ ((1 ≤ v ∧ v ≤ 9) ∧ some v ∉ L) := by
  unfold isValidValue
  rw [contains_iff, mem_symmetricDifference _ _ completedSet_nodup]
  have hS : some v ∈ setDelete (jsSet L) none ↔ some v ∈ L := by
    rw [mem_setDelete, mem_jsSet]
    simp
  constructor
  · rintro (⟨hin, hnc⟩ | ⟨hnin, hc⟩)
    · rw [hS] at hin
      have hok := hL _ hin
      rcases cellOK_shape _ hok with h | ⟨w, hw', h1, h9⟩
      · cases h
      · exfalso
        injection hw' with e
        subst e
        exact hnc (by rw [mem_completedSet]; exact ⟨h1, h9⟩)
    · rw [mem_completedSet] at hc
      exact ⟨hc, fun hmem => hnin (hS.mpr hmem)⟩
  · rintro ⟨⟨h1, h9⟩, hnin⟩
    right
    constructor
    · rw [hS]
      exact hnin
    · rw [mem_completedSet]
      exact ⟨h1, h9⟩

end SudokuSolver

namespace SudokuSolver

theorem getCell_read (b : Board) (row column : Nat) :
    getCell b row column = readBoard b (row * 9 + column) := rfl

/-! ### Claims -/

/-- C7: on a well-formed board, `getValidPossibleValues` (in either mode,
including the clear-and-restore mode) and `isValidBoard` leave the board in
exactly the same state as before the call: the board component of their
results equals the input board. -/
theorem claim_C7 (b : Board) (hw : wfBoard b = true) :
    (∀ row column mode, (getValidPossibleValues b row column mode).2 = b) ∧
    (isValidBoard b).2 = b :=
  ⟨fun row column mode => gvpv_board b row column mode hw, isValidBoard_board b hw⟩

theorem claim_C7_witness :
    wfBoard (setBoardFromString emptyBoard examplePuzzle) = true ∧
    ((∀ row column mode,
        (getValidPossibleValues (setBoardFromString emptyBoard examplePuzzle)
          row column mode).2 = setBoardFromString emptyBoard examplePuzzle) ∧
      (isValidBoard (setBoardFromString emptyBoard examplePuzzle)).2 =
        setBoardFromString emptyBoard examplePuzzle) :=
  have hw : wfBoard (setBoardFromString emptyBoard examplePuzzle) = true := by decide
  ⟨hw, claim_C7 (setBoardFromString emptyBoard examplePuzzle) hw⟩

end SudokuSolver

namespace SudokuSolver

/-- C2: on a well-formed board, for a coordinate in 0..8: an occupied cell
gets the singleton of its current value; an empty cell gets exactly the
digits 1..9 that do not occur in its row, column, or region (and every
candidate is one of `completedSet`). -/
theorem claim_C2 (b : Board) (row column : Nat) (hw : wfBoard b = true)
    (_hrow : row < 9) (_hcol : column < 9) :
    (∀ v, getCell b row column = some v →
      (getValidPossibleValues b row column false).1 = [some v]) ∧
    (getCell b row column = none →
      (∀ d, some d ∈ (getValidPossibleValues b row column false).1 ↔
        ((1 ≤ d ∧ d ≤ 9) ∧ some d ∉ getBoardRow b row ∧ some d ∉ getBoardColumn b column ∧
          some d ∉ getBoardRegion b row column)) ∧
      (∀ x ∈ (getValidPossibleValues b row column false).1, x ∈ completedSet)) := by
  have hok := cellOK_read b (row * 9 + column) hw
  constructor
  · intro v hv
    rw [getCell_read] at hv
    have h1 : 1 ≤ v := by
      rcases cellOK_shape _ hok with h | ⟨w, hw', h1, _⟩
      · rw [hv] at h
        cases h
      · rw [hv] at hw'
        injection hw' with e
        omega
    have ht : truthy (getCell b row column) = true := by
      rw [getCell_read, hv]
      unfold truthy
      simp only [bne_iff_ne, ne_eq]
      omega
    simp only [getValidPossibleValues, Bool.false_eq_true, if_false, ht, if_true]
    rw [getCell_read, hv]
    rfl
  · intro hnone
    have ht : truthy (getCell b row column) = false := by
      rw [hnone]
      rfl
    have hgv : (getValidPossibleValues b row column false).1 =
        (getValidPossibleValuesTail b row column (getCell b row column)).1 := by
      simp only [getValidPossibleValues, Bool.false_eq_true, if_false, ht]
    constructor
    · intro d
      rw [hgv, gvpvTail_mem b row column _ hw, mem_completedSet]
      constructor
      · rintro ⟨h19, hnot⟩
        push_neg at hnot
        exact ⟨h19, hnot.2.1, hnot.2.2, hnot.1⟩
      · rintro ⟨h19, hrow, hcol, hreg⟩
        refine ⟨h19, ?_⟩
        rintro (h | h | h)
        · exact hreg h
        · exact hrow h
        · exact hcol h
    · intro x hx
      rw [hgv] at hx
      exact gvpvTail_subset b row column _ hw x hx

theorem claim_C2_witness :
    wfBoard (setBoardFromString emptyBoard examplePuzzle) = true ∧ (0 : Nat) < 9 ∧
    ((∀ v, getCell (setBoardFromString emptyBoard examplePuzzle) 0 0 = some v →
      (getValidPossibleValues (setBoardFromString emptyBoard examplePuzzle) 0 0 false).1 =
        [some v]) ∧
    (getCell (setBoardFromString emptyBoard examplePuzzle) 0 0 = none →
      (∀ d, some d ∈ (getValidPossibleValues (setBoardFromString emptyBoard examplePuzzle)
          0 0 false).1 ↔
        ((1 ≤ d ∧ d ≤ 9) ∧
          some d ∉ getBoardRow (setBoardFromString emptyBoard examplePuzzle) 0 ∧
          some d ∉ getBoardColumn (setBoardFromString emptyBoard examplePuzzle) 0 ∧
          some d ∉ getBoardRegion (setBoardFromString emptyBoard examplePuzzle) 0 0)) ∧
      (∀ x ∈ (getValidPossibleValues (setBoardFromString emptyBoard examplePuzzle) 0 0 false).1,
        x ∈ completedSet))) :=
  have hw : wfBoard (setBoardFromString emptyBoard examplePuzzle) = true := by decide
  ⟨hw, by omega,
    claim_C2 (setBoardFromString emptyBoard examplePuzzle) 0 0 hw (by omega) (by omega)⟩

/-- C3: on a well-formed board, each placement predicate returns false on an
occupied target cell regardless of the proposed value; on an empty target
cell with a value 1..9 it returns true exactly when the value does not
already occur in the corresponding row, column, or region. -/
theorem claim_C3 (b : Board) (row column : Nat) (hw : wfBoard b = true)
    (_hrow : row < 9) (_hcol : column < 9) :
    (truthy (getCell b row column) = true → ∀ value,
      isValidRowPlacement b row column value = false ∧
      isValidColumnPlacement b row column value = false ∧
      isValidRegionPlacement b row column value = false) ∧
    (getCell b row column = none → ∀ value, 1 ≤ value → value ≤ 9 →
      (isValidRowPlacement b row column value = true ↔ some value ∉ getBoardRow b row) ∧
      (isValidColumnPlacement b row column value = true ↔
        some value ∉ getBoardColumn b column) ∧
      (isValidRegionPlacement b row column value = true ↔
        some value ∉ getBoardRegion b row column)) := by
  constructor
  · intro ht value
    simp [isValidRowPlacement, isValidColumnPlacement, isValidRegionPlacement, ht]
  · intro hnone value h1 h9
    have ht : truthy (getCell b row column) = false := by
      rw [hnone]
      rfl
    simp only [isValidRowPlacement, isValidColumnPlacement, isValidRegionPlacement, ht,
      Bool.false_eq_true, if_false]
    refine ⟨?_, ?_, ?_⟩
    · rw [isValidValue_char _ (cellOK_of_mem_row b row hw) value]
      constructor
      · rintro ⟨_, h⟩
        exact h
      · intro h
        exact ⟨⟨h1, h9⟩, h⟩
    · rw [isValidValue_char _ (cellOK_of_mem_column b column hw) value]
      constructor
      · rintro ⟨_, h⟩
        exact h
      · intro h
        exact ⟨⟨h1, h9⟩, h⟩
    · rw [isValidValue_char _ (cellOK_of_mem_region b row column hw) value]
      constructor
      · rintro ⟨_, h⟩
        exact h
      · intro h
        exact ⟨⟨h1, h9⟩, h⟩

theorem claim_C3_witness :
    wfBoard (setBoardFromString emptyBoard examplePuzzle) = true ∧ (0 : Nat) < 9 ∧
    ((truthy (getCell (setBoardFromString emptyBoard examplePuzzle) 0 0) = true → ∀ value,
      isValidRowPlacement (setBoardFromString emptyBoard examplePuzzle) 0 0 value = false ∧
      isValidColumnPlacement (setBoardFromString emptyBoard examplePuzzle) 0 0 value = false ∧
      isValidRegionPlacement (setBoardFromString emptyBoard examplePuzzle) 0 0 value = false) ∧
    (getCell (setBoardFromString emptyBoard examplePuzzle) 0 0 = none →
      ∀ value, 1 ≤ value → value ≤ 9 →
      (isValidRowPlacement (setBoardFromString emptyBoard examplePuzzle) 0 0 value = true ↔
        some value ∉ getBoardRow (setBoardFromString emptyBoard examplePuzzle) 0) ∧
      (isValidColumnPlacement (setBoardFromString emptyBoard examplePuzzle) 0 0 value = true ↔
        some value ∉ getBoardColumn (setBoardFromString emptyBoard examplePuzzle) 0) ∧
      (isValidRegionPlacement (setBoardFromString emptyBoard examplePuzzle) 0 0 value = true ↔
        some value ∉ getBoardRegion (setBoardFromString emptyBoard examplePuzzle) 0 0))) :=
  have hw : wfBoard (setBoardFromString emptyBoard examplePuzzle) = true := by decide
  ⟨hw, by omega,
    claim_C3 (setBoardFromString emptyBoard examplePuzzle) 0 0 hw (by omega) (by omega)⟩

end SudokuSolver

namespace SudokuSolver

/-! ### Round-trip between boards and strings -/

theorem setCells_read_lt : ∀ (l : List Char) (b : Board) (i j : Nat),
    i + l.length ≤ 81 → j < i → readBoard (setCells b i l) j = readBoard b j := by
  intro l
  induction l with
  | nil => intro b i j _ _; rfl
  | cons d rest ih =>
    intro b i j hle hj
    simp only [setCells]
    rw [ih _ (i + 1) j (by simp only [List.length_cons] at hle; omega) (by omega)]
    exact read_write_ne b j i _ (by omega) (by simp only [List.length_cons] at hle; omega)
      (by omega)

theorem setCells_read : ∀ (l : List Char) (b : Board) (i : Nat), shapeOK b = true →
    i + l.length ≤ 81 → ∀ j, i ≤ j → j < i + l.length →
    readBoard (setCells b i l) j = charToCell (l.getD (j - i) '.') := by
  intro l
  induction l with
  | nil =>
    intro b i _ _ j h1 h2
    simp at h2
    omega
  | cons d rest ih =>
    intro b i hs hle j h1 h2
    simp only [setCells]
    rcases Nat.eq_or_lt_of_le h1 with he | hlt
    · subst he
      rw [setCells_read_lt rest _ (i + 1) i (by simp only [List.length_cons] at hle; omega)
        (by omega)]
      rw [read_write_self b i _ hs (by simp only [List.length_cons] at hle; omega)]
      simp
    · rw [ih _ (i + 1) (shapeOK_write b i _ hs)
        (by simp only [List.length_cons] at hle; omega) j (by omega)
        (by simp only [List.length_cons] at h2; omega)]
      have : j - i = (j - (i + 1)) + 1 := by omega
      rw [this]
      rfl

theorem string_join_data : ∀ (l : List String),
    (String.join l).data = (l.map String.data).flatten := by
  have haux : ∀ (l : List String) (init : String),
      (l.foldl (fun r s => r ++ s) init).data = init.data ++ (l.map String.data).flatten := by
    intro l
    induction l with
    | nil => intro init; simp
    | cons s rest ih =>
      intro init
      simp only [List.foldl_cons, List.map_cons, List.flatten_cons]
      rw [ih (init ++ s)]
      simp
  intro l
  have := haux l ""
  simpa [String.join] using this

theorem cellString_charToCell (c : Char) (hc : c ∈ puzzleChars) :
    (cellString (charToCell c)).data = [c] := by
  fin_cases hc <;> rfl

theorem flatten_map_singleton {α β : Type} (g : α → β) : ∀ (l : List α),
    (l.map (fun x => [g x])).flatten = l.map g := by
  intro l
  induction l with
  | nil => rfl
  | cons a rest ih =>
    simp only [List.map_cons, List.flatten_cons, ih]
    rfl

theorem list_eq_map_range_getD {α : Type} (l : List α) (d : α) :
    l = (List.range l.length).map (fun i => l.getD i d) := by
  apply List.ext_getElem (by simp)
  intro i hi hi'
  simp only [List.getElem_map, List.getElem_range]
  rw [List.getD_eq_getElem l d hi]

theorem isValidPuzzleString_parts (s : String) (h : isValidPuzzleString s = true) :
    s.data.length = 81 ∧ ∀ c ∈ s.data, c ∈ puzzleChars := by
  unfold isValidPuzzleString isValidLength isValidCharacters at h
  simp only [Bool.and_eq_true, beq_iff_eq, List.all_eq_true, decide_eq_true_eq] at h
  refine ⟨h.1, ?_⟩
  intro c hc
  have := h.2.2 c hc
  simpa using this

/-- C4: serializing a board loaded from a valid 81-character string over
`{., 1-9}` returns the string unchanged. -/
theorem claim_C4 (s : String) (h : isValidPuzzleString s = true) :
    getStringFromBoard (setBoardFromString emptyBoard s) = s := by
  obtain ⟨hlen, hchars⟩ := isValidPuzzleString_parts s h
  have hb : setBoardFromString emptyBoard s = setCells emptyBoard 0 s.data := by
    simp [setBoardFromString, h]
  rw [hb]
  apply String.ext
  unfold getStringFromBoard
  rw [string_join_data, List.map_map]
  have hcell : ∀ i ∈ List.range 81,
      ((String.data ∘ fun index => cellString (readBoard (setCells emptyBoard 0 s.data) index)) i)
        = [s.data.getD i '.'] := by
    intro i hi
    rw [List.mem_range] at hi
    simp only [Function.comp_apply]
    rw [setCells_read s.data emptyBoard 0 shapeOK_emptyBoard (by omega) i (by omega)
      (by omega)]
    have hgm : s.data.getD (i - 0) '.' ∈ puzzleChars := by
      apply hchars
      rw [List.getD_eq_getElem s.data '.' (by omega)]
      exact List.getElem_mem _
    simpa using cellString_charToCell _ (by simpa using hgm)
  rw [List.map_congr_left hcell, flatten_map_singleton (fun i => s.data.getD i '.')]
  conv_rhs => rw [list_eq_map_range_getD s.data '.', hlen]

theorem claim_C4_witness :
    isValidPuzzleString examplePuzzle = true ∧
    getStringFromBoard (setBoardFromString emptyBoard examplePuzzle) = examplePuzzle :=
  have hv : isValidPuzzleString examplePuzzle = true := by decide
  ⟨hv, claim_C4 examplePuzzle hv⟩

end SudokuSolver

namespace SudokuSolver

/-- C9 (amended): `setBoardFromString` raises no typed error itself: it
validates with `isValidPuzzleString` (length 81 and characters in `[.1-9]`)
and silently leaves the board unchanged on invalid input; the request layer's
`getPuzzleStringError` maps a bad length to
`"Expected puzzle to be 81 characters long"` (checked first) and otherwise a
bad character to `"Invalid characters in puzzle"`; on valid input character
`i` is stored at row `i / 9`, column `i % 9`, `'.'` as empty and digits as
their value. -/
theorem claim_C9 (b : Board) (s : String) (hs : shapeOK b = true) :
    (isValidPuzzleString s = (isValidLength s && isValidCharacters s)) ∧
    (isValidPuzzleString s = false → setBoardFromString b s = b) ∧
    (isValidLength s = false →
      getPuzzleStringError s = "Expected puzzle to be 81 characters long") ∧
    (isValidLength s = true → isValidCharacters s = false →
      getPuzzleStringError s = "Invalid characters in puzzle") ∧
    (isValidPuzzleString s = true → ∀ i, i < 81 →
      getCell (setBoardFromString b s) (i / 9) (i % 9) = charToCell (s.data.getD i '.')) := by
  refine ⟨rfl, ?_, ?_, ?_, ?_⟩
  · intro h
    simp [setBoardFromString, h]
  · intro h
    have hp : isValidPuzzleString s = false := by
      unfold isValidPuzzleString
      rw [h]
      rfl
    simp [getPuzzleStringError, hp, h]
  · intro hl hc
    have hp : isValidPuzzleString s = false := by
      unfold isValidPuzzleString
      rw [hl, hc]
      rfl
    simp [getPuzzleStringError, hp, hl, hc]
  · intro h i hi
    obtain ⟨hlen, _⟩ := isValidPuzzleString_parts s h
    have hb : setBoardFromString b s = setCells b 0 s.data := by
      simp [setBoardFromString, h]
    rw [hb, getCell_read]
    have hidx : i / 9 * 9 + i % 9 = i := by omega
    rw [hidx]
    have := setCells_read s.data b 0 hs (by omega) i (by omega) (by omega)
    simpa using this

/-- C9 counterexample: on a length-80 string that also contains the invalid
character `x`, the claimed typed `InvalidCharacters` failure does not occur:
`setBoardFromString` returns normally with the board unchanged, and the
request layer reports the length error, not the characters error. -/
theorem claim_C9_cex :
    isValidLength shortBadPuzzle = false ∧
    isValidCharacters shortBadPuzzle = false ∧
    setBoardFromString emptyBoard shortBadPuzzle = emptyBoard ∧
    getPuzzleStringError shortBadPuzzle = "Expected puzzle to be 81 characters long" :=
  ⟨by decide, by decide, by decide, by decide⟩

theorem claim_C9_witness :
    shapeOK emptyBoard = true ∧
    ((isValidPuzzleString examplePuzzle =
        (isValidLength examplePuzzle && isValidCharacters examplePuzzle)) ∧
    (isValidPuzzleString examplePuzzle = false →
      setBoardFromString emptyBoard examplePuzzle = emptyBoard) ∧
    (isValidLength examplePuzzle = false →
      getPuzzleStringError examplePuzzle = "Expected puzzle to be 81 characters long") ∧
    (isValidLength examplePuzzle = true → isValidCharacters examplePuzzle = false →
      getPuzzleStringError examplePuzzle = "Invalid characters in puzzle") ∧
    (isValidPuzzleString examplePuzzle = true → ∀ i, i < 81 →
      getCell (setBoardFromString emptyBoard examplePuzzle) (i / 9) (i % 9) =
        charToCell (examplePuzzle.data.getD i '.'))) :=
  have hs : shapeOK emptyBoard = true := by decide
  ⟨hs, claim_C9 emptyBoard examplePuzzle hs⟩

/-- C5: on a well-formed board rejected by `isValidBoard`, `solve` returns
the `invalidBoard` outcome (the string `'invalid board'`) immediately — by
definition before any loop iteration — and the board is exactly the input
board (no mutation); in particular the outcome is not `unsolvable`. -/
theorem claim_C5 (det : Bool) (o : Nat → Nat) (b : Board) (hw : wfBoard b = true)
    (hv : (isValidBoard b).1 = false) :
    solve det o b = (SolveResult.invalidBoard, b) := by
  unfold solve
  simp only [hv, Bool.false_eq_true, if_false, isValidBoard_board b hw]

theorem claim_C5_witness :
    wfBoard (setBoardFromString emptyBoard duplicateRowPuzzle) = true ∧
    (isValidBoard (setBoardFromString emptyBoard duplicateRowPuzzle)).1 = false ∧
    solve true oracleA (setBoardFromString emptyBoard duplicateRowPuzzle) =
      (SolveResult.invalidBoard, setBoardFromString emptyBoard duplicateRowPuzzle) :=
  have hw : wfBoard (setBoardFromString emptyBoard duplicateRowPuzzle) = true := by decide
  have hv : (isValidBoard (setBoardFromString emptyBoard duplicateRowPuzzle)).1 = false := by
    decide
  ⟨hw, hv,
    claim_C5 true oracleA (setBoardFromString emptyBoard duplicateRowPuzzle) hw hv⟩

end SudokuSolver

namespace SudokuSolver

theorem solveLoop_fuel_aux : ∀ (n : Nat) (det : Bool) (o : Nat → Nat) (b : Board)
    (stack : List Frame) (count k fuel : Nat), 5000 - count ≤ n → count < 5000 →
    5000 - count ≤ fuel →
    solveLoop det o fuel b stack count k = solveLoop det o (5000 - count) b stack count k := by
  intro n
  induction n with
  | zero =>
    intro det o b stack count k fuel hn hc _
    omega
  | succ n ih =>
    intro det o b stack count k fuel hn hc hf
    obtain ⟨f1, rfl⟩ : ∃ f1, fuel = f1 + 1 := ⟨fuel - 1, by omega⟩
    obtain ⟨m, hm⟩ : ∃ m, 5000 - count = m + 1 := ⟨5000 - count - 1, by omega⟩
    rw [hm]
    simp only [solveLoop]
    by_cases hsolved : (isBoardSolved b).1 = true
    · simp [hsolved]
    · simp only [Bool.not_eq_true] at hsolved
      simp only [hsolved, Bool.false_eq_true, if_false]
      cases hstep : solveStep det o (isBoardSolved b).2 stack k with
      | done r bd => rfl
      | next b1 stack1 k1 =>
        by_cases hcc : count + 1 == 5000
        · simp [hcc]
        · simp only [hcc, Bool.false_eq_true, if_false]
          have hlt : count + 1 < 5000 := by
            simp only [beq_iff_eq] at hcc
            omega
          rw [ih det o b1 stack1 (count + 1) k1 f1 (by omega) hlt (by omega),
            ih det o b1 stack1 (count + 1) k1 m (by omega) hlt (by omega)]

/-- C8: the search loop is bounded by the 5000-attempt ceiling. First, any
fuel budget of at least `5000 - attemptCount` produces the same result as the
canonical budget, so the loop as entered by `solve` (fuel 5000, count 0)
never needs more than 5000 iterations; second, an iteration that completes a
placement when the attempt counter reaches 5000 returns the `timeout` outcome
(the string `'timeout attempting to solve'`) instead of continuing. -/
theorem claim_C8 :
    (∀ (det : Bool) (o : Nat → Nat) (b : Board) (stack : List Frame) (count k fuel : Nat),
      count < 5000 → 5000 - count ≤ fuel →
      solveLoop det o fuel b stack count k = solveLoop det o (5000 - count) b stack count k) ∧
    (∀ (det : Bool) (o : Nat → Nat) (b b0 b1 : Board) (stack stack1 : List Frame)
      (count k k1 : Nat) (fuel : Nat), count + 1 = 5000 →
      isBoardSolved b = (false, b0) →
      solveStep det o b0 stack k = StepOut.next b1 stack1 k1 →
      solveLoop det o (fuel + 1) b stack count k = (SolveResult.timeout, b1)) := by
  constructor
  · intro det o b stack count k fuel hc hf
    exact solveLoop_fuel_aux (5000 - count) det o b stack count k fuel (by omega) hc hf
  · intro det o b b0 b1 stack stack1 count k k1 fuel hc hsolved hstep
    simp only [solveLoop, hsolved, Bool.false_eq_true, if_false, hstep, hc]
    rfl

theorem claim_C8_witness :
    ((0 : Nat) < 5000 ∧ 5000 - 0 ≤ 5001 ∧
      solveLoop true oracleA 5001 emptyBoard [] 0 0 =
        solveLoop true oracleA (5000 - 0) emptyBoard [] 0 0) ∧
    (4999 + 1 = 5000 ∧
      isBoardSolved (setBoardFromString emptyBoard nearSolved) =
        (false, setBoardFromString emptyBoard nearSolved) ∧
      solveStep true oracleA (setBoardFromString emptyBoard nearSolved) [] 0 =
        StepOut.next (setBoardFromString emptyBoard fullSolution)
          [{ row := 0, column := 0, values := [], string := fullSolution }] 0 ∧
      solveLoop true oracleA (7 + 1) (setBoardFromString emptyBoard nearSolved) [] 4999 0 =
        (SolveResult.timeout, setBoardFromString emptyBoard fullSolution)) :=
  have hbs : isBoardSolved (setBoardFromString emptyBoard nearSolved) =
      (false, setBoardFromString emptyBoard nearSolved) := by decide
  have hst : solveStep true oracleA (setBoardFromString emptyBoard nearSolved) [] 0 =
      StepOut.next (setBoardFromString emptyBoard fullSolution)
        [{ row := 0, column := 0, values := [], string := fullSolution }] 0 := by decide
  ⟨⟨by omega, by omega, claim_C8.1 true oracleA emptyBoard [] 0 0 5001 (by omega) (by omega)⟩,
    ⟨by omega, hbs, hst,
      claim_C8.2 true oracleA (setBoardFromString emptyBoard nearSolved)
        (setBoardFromString emptyBoard nearSolved)
        (setBoardFromString emptyBoard fullSolution) []
        [{ row := 0, column := 0, values := [], string := fullSolution }]
        4999 0 0 7 (by omega) hbs hst⟩⟩

theorem solveStep_det (o o' : Nat → Nat) (b : Board) (stack : List Frame) (k : Nat) :
    solveStep true o b stack k = solveStep true o' b stack k := rfl

theorem solveLoop_det : ∀ (fuel : Nat) (o o' : Nat → Nat) (b : Board) (stack : List Frame)
    (count k : Nat),
    solveLoop true o fuel b stack count k = solveLoop true o' fuel b stack count k := by
  intro fuel
  induction fuel with
  | zero => intro o o' b stack count k; rfl
  | succ n ih =>
    intro o o' b stack count k
    simp only [solveLoop]
    by_cases hsolved : (isBoardSolved b).1 = true
    · simp [hsolved]
    · simp only [Bool.not_eq_true] at hsolved
      simp only [hsolved, Bool.false_eq_true, if_false]
      rw [solveStep_det o o' (isBoardSolved b).2 stack k]
      cases hstep : solveStep true o' (isBoardSolved b).2 stack k with
      | done r bd => rfl
      | next b1 stack1 k1 =>
        by_cases hcc : count + 1 == 5000
        · simp [hcc]
        · simp only [hcc, Bool.false_eq_true, if_false]
          exact ih o o' b1 stack1 (count + 1) k1

/-- C10 (amended): `solve` consults the random source only when the
`deterministic` flag is false. With `deterministic = true` the outcome is a
function of the board alone — any two runs, whatever the random source,
return the same outcome and solution string. With the constructor's default
flags (`deterministic = false`), as used by the request layer's
`new SudokuSolver()`, cell and value selection consult `Math.random`, and two
runs on equal boards can return different solution strings (see the
counterexample). -/
theorem claim_C10 (o o' : Nat → Nat) (b : Board) : solve true o b = solve true o' b := by
  unfold solve
  by_cases hv : (isValidBoard b).1 = true
  · simp only [hv, if_true]
    exact solveLoop_det 5000 o o' (isValidBoard b).2 [] 0 0
  · simp [hv]

theorem randomRunA :
    (solve false oracleA (setBoardFromString emptyBoard rectPuzzle)).1 =
      SolveResult.solved fullSolution := by decide

theorem randomRunB :
    (solve false oracleB (setBoardFromString emptyBoard rectPuzzle)).1 =
      SolveResult.solved rectSolutionB := by decide

/-- C10 counterexample: on the two-solution puzzle `rectPuzzle`, two runs of
`solve` in the default randomized mode with different random draws both
succeed but return different solution strings. -/
theorem claim_C10_cex :
    (solve false oracleA (setBoardFromString emptyBoard rectPuzzle)).1 =
      SolveResult.solved fullSolution ∧
    (solve false oracleB (setBoardFromString emptyBoard rectPuzzle)).1 =
      SolveResult.solved rectSolutionB ∧
    fullSolution ≠ rectSolutionB :=
  ⟨randomRunA, randomRunB, by decide⟩

end SudokuSolver

namespace SudokuSolver

theorem rc_index : ∀ row < 9, ∀ col < 9, boardRowIndex (row * 9 + col) = row ∧
    boardColumnIndex (row * 9 + col) = col := by decide

theorem selectCell_mem (det : Bool) (r : Nat) (cells : List Frame) (f : Frame)
    (h : selectCell det r cells = some f) : f ∈ cells := by
  unfold selectCell at h
  by_cases hd : det
  · simp only [hd, if_true] at h
    exact List.mem_of_mem_getLast? h
  · simp only [hd, if_false] at h
    exact List.get?_mem h

/-- Invariant of the minimal-candidate scan: every collected frame is an
empty cell carrying its candidate set, all frames share one candidate count,
and that count is a lower bound for the candidate count of every empty cell
already scanned. -/
theorem scanFrom_inv : ∀ (fuel : Nat) (b : Board) (i : Nat) (cells : List Frame) (nvv : Nat),
    wfBoard b = true → i + fuel = 81 →
    (∀ f ∈ cells, getCell b f.row f.column = none ∧
      f.values = (getValidPossibleValues b f.row f.column false).1 ∧
      f.values.length = nvv) →
    (∀ j, j < i → getCell b (boardRowIndex j) (boardColumnIndex j) = none →
      nvv ≤ (getValidPossibleValues b (boardRowIndex j) (boardColumnIndex j) false).1.length) →
    ∃ m, (∀ f ∈ (scanFrom b i cells nvv fuel).1, getCell b f.row f.column = none ∧
        f.values = (getValidPossibleValues b f.row f.column false).1 ∧
        f.values.length = m) ∧
      (∀ j, j < 81 → getCell b (boardRowIndex j) (boardColumnIndex j) = none →
        m ≤ (getValidPossibleValues b (boardRowIndex j) (boardColumnIndex j) false).1.length) := by
  intro fuel
  induction fuel with
  | zero =>
    intro b i cells nvv hw hfi ha hb
    refine ⟨nvv, ?_, ?_⟩
    · intro f hf
      exact ha f hf
    · intro j hj hcell
      exact hb j (by omega) hcell
  | succ n ih =>
    intro b i cells nvv hw hfi ha hb
    simp only [scanFrom]
    by_cases ht : truthy (getCell b (boardRowIndex i) (boardColumnIndex i))
    · simp only [ht, if_true]
      refine ih b (i + 1) cells nvv hw (by omega) ha ?_
      intro j hj hcell
      rcases Nat.lt_or_ge j i with hji | hji
      · exact hb j hji hcell
      · have hji2 : j = i := by omega
        subst hji2
        rw [hcell] at ht
        cases ht
    · simp only [ht, if_false]
      have hcell : getCell b (boardRowIndex i) (boardColumnIndex i) = none :=
        not_truthy_eq_none _ (cellOK_read b _ hw) (by simpa using ht)
      have hbd := gvpv_board b (boardRowIndex i) (boardColumnIndex i) false hw
      by_cases hle : (getValidPossibleValues b (boardRowIndex i) (boardColumnIndex i)
          false).1.length ≤ nvv
      · simp only [hle, if_pos]
        rw [hbd]
        refine ih b (i + 1) _ _ hw (by omega) ?_ ?_
        · intro f hf
          rcases List.mem_append.mp hf with hf1 | hf2
          · have hmem := (List.mem_filter.mp hf1).1
            have hpred := (List.mem_filter.mp hf1).2
            obtain ⟨h1, h2, _⟩ := ha f hmem
            exact ⟨h1, h2, by simpa using hpred⟩
          · rw [List.mem_singleton] at hf2
            subst hf2
            exact ⟨hcell, rfl, rfl⟩
        · intro j hj hcellj
          rcases Nat.lt_or_ge j i with hji | hji
          · exact Nat.le_trans hle (hb j hji hcellj)
          · have hji2 : j = i := by omega
            subst hji2
            exact Nat.le_refl _
      · simp only [hle, if_neg, if_false]
        rw [hbd]
        refine ih b (i + 1) cells nvv hw (by omega) ha ?_
        intro j hj hcellj
        rcases Nat.lt_or_ge j i with hji | hji
        · exact hb j hji hcellj
        · have hji2 : j = i := by omega
          subst hji2
          omega

/-- C6: whichever tie-breaking policy is active (deterministic `pop`, or any
random draw `r`), the cell selected from the scan over a well-formed board is
an empty cell whose candidate list is its `getValidPossibleValues` result and
whose candidate count is minimal among all empty cells of the board. -/
theorem claim_C6 (b : Board) (det : Bool) (r : Nat) (f : Frame) (hw : wfBoard b = true)
    (hsel : selectCell det r (scanFrom b 0 [] 9 81).1 = some f) :
    getCell b f.row f.column = none ∧
    f.values = (getValidPossibleValues b f.row f.column false).1 ∧
    ∀ row col, row < 9 → col < 9 → getCell b row col = none →
      f.values.length ≤ (getValidPossibleValues b row col false).1.length := by
  have hmem := selectCell_mem det r _ f hsel
  obtain ⟨m, hall, hmin⟩ := scanFrom_inv 81 b 0 [] 9 hw (by omega)
    (by intro f hf; cases hf) (by intro j hj; omega)
  obtain ⟨h1, h2, h3⟩ := hall f hmem
  refine ⟨h1, h2, ?_⟩
  intro row col hrow hcol hc
  obtain ⟨hr, hcq⟩ := rc_index row hrow col hcol
  have := hmin (row * 9 + col) (by omega)
  rw [hr, hcq] at this
  rw [h3]
  exact this hc

theorem claim_C6_witness :
    wfBoard (setBoardFromString emptyBoard nearSolved) = true ∧
    selectCell true 0 (scanFrom (setBoardFromString emptyBoard nearSolved) 0 [] 9 81).1 =
      some { row := 0, column := 0, values := [some 1], string := "" } ∧
    (getCell (setBoardFromString emptyBoard nearSolved) 0 0 = none ∧
      ({ row := 0, column := 0, values := [some 1], string := "" } : Frame).values =
        (getValidPossibleValues (setBoardFromString emptyBoard nearSolved) 0 0 false).1 ∧
      ∀ row col, row < 9 → col < 9 →
        getCell (setBoardFromString emptyBoard nearSolved) row col = none →
        ({ row := 0, column := 0, values := [some 1], string := "" } : Frame).values.length ≤
          (getValidPossibleValues (setBoardFromString emptyBoard nearSolved) row col
            false).1.length) :=
  have hw : wfBoard (setBoardFromString emptyBoard nearSolved) = true := by decide
  have hsel : selectCell true 0 (scanFrom (setBoardFromString emptyBoard nearSolved) 0 [] 9 81).1 =
      some { row := 0, column := 0, values := [some 1], string := "" } := by decide
  ⟨hw, hsel,
    claim_C6 (setBoardFromString emptyBoard nearSolved) true 0
      { row := 0, column := 0, values := [some 1], string := "" } hw hsel⟩

end SudokuSolver

namespace SudokuSolver

/-! ### Facts extracted from a solved board -/

theorem isBoardSolved_parts (b : Board) (h : (isBoardSolved b).1 = true) :
    (isValidBoard b).1 = true ∧ symmetricDifference b.flatten.flatten completedSet = [] := by
  unfold isBoardSolved at h
  simp only [Bool.and_eq_true, beq_iff_eq] at h
  exact ⟨h.1, List.length_eq_zero.mp h.2⟩

theorem readBoard_mem_flatten (b : Board) (i : Nat) (hs : shapeOK b = true) (hi : i < 81) :
    readBoard b i ∈ b.flatten.flatten := by
  obtain ⟨hq, hr, hc⟩ := index_bounds i hi
  have hbq : regionIndex i < b.length := by rw [shapeOK_length b hs]; exact hq
  have hbr : regionRowIndex i < (b.getD (regionIndex i) []).length := by
    rw [shapeOK_region_length b hs _ hq]; exact hr
  have hbc : regionRowCellIndex i <
      ((b.getD (regionIndex i) []).getD (regionRowIndex i) []).length := by
    rw [shapeOK_row_length b hs _ _ hq hr]; exact hc
  unfold readBoard
  rw [List.mem_flatten]
  refine ⟨(b.getD (regionIndex i) []).getD (regionRowIndex i) [], ?_, ?_⟩
  · rw [List.mem_flatten]
    refine ⟨b.getD (regionIndex i) [], ?_, ?_⟩
    · rw [List.getD_eq_getElem b [] hbq]
      exact b.getElem_mem hbq
    · rw [List.getD_eq_getElem _ [] hbr]
      exact List.getElem_mem hbr
  · rcases getD_mem_or ((b.getD (regionIndex i) []).getD (regionRowIndex i) [])
        (regionRowCellIndex i) none with hm | hm
    · exact hm
    · rw [List.getD_eq_getElem _ none hbc]
      exact List.getElem_mem hbc

theorem mem_completedSet_shape (x : Cell) (h : x ∈ completedSet) :
    ∃ v, x = some v ∧ 1 ≤ v ∧ v ≤ 9 := by
  fin_cases h
  · exact ⟨1, rfl, by omega⟩
  · exact ⟨2, rfl, by omega⟩
  · exact ⟨3, rfl, by omega⟩
  · exact ⟨4, rfl, by omega⟩
  · exact ⟨5, rfl, by omega⟩
  · exact ⟨6, rfl, by omega⟩
  · exact ⟨7, rfl, by omega⟩
  · exact ⟨8, rfl, by omega⟩
  · exact ⟨9, rfl, by omega⟩

theorem solved_cells (b : Board) (hs : shapeOK b = true)
    (hdiff : symmetricDifference b.flatten.flatten completedSet = []) :
    ∀ i, i < 81 → ∃ v, readBoard b i = some v ∧ 1 ≤ v ∧ v ≤ 9 := by
  intro i hi
  have hmem := readBoard_mem_flatten b i hs hi
  have hiff := symmetricDifference_nil _ _ completedSet_nodup hdiff (readBoard b i)
  obtain ⟨v, hv, h1, h9⟩ := mem_completedSet_shape _ (hiff.mp hmem)
  exact ⟨v, hv, h1, h9⟩

theorem solved_wf (b : Board) (hs : shapeOK b = true)
    (hfull : ∀ i, i < 81 → ∃ v, readBoard b i = some v ∧ 1 ≤ v ∧ v ≤ 9) :
    wfBoard b = true := by
  unfold wfBoard
  rw [Bool.and_eq_true]
  refine ⟨hs, ?_⟩
  simp only [List.all_eq_true]
  intro reg hreg row hrow cell hcell
  obtain ⟨q, hq, hqe⟩ := List.mem_iff_getElem.mp hreg
  subst hqe
  obtain ⟨r, hr, hre⟩ := List.mem_iff_getElem.mp hrow
  subst hre
  obtain ⟨c, hc, hce⟩ := List.mem_iff_getElem.mp hcell
  subst hce
  have hq9 : q < 9 := by
    rw [shapeOK_length b hs] at hq
    exact hq
  have hr3 : r < 3 := by
    have h := shapeOK_region_length b hs q hq9
    rw [List.getD_eq_getElem b [] hq] at h
    omega
  have hc3 : c < 3 := by
    have h := shapeOK_row_length b hs q r hq9 hr3
    rw [List.getD_eq_getElem b [] hq, List.getD_eq_getElem _ [] hr] at h
    omega
  obtain ⟨hfi, hfq, hfr, hfc⟩ := flatIndex_spec q hq9 r hr3 c hc3
  obtain ⟨v, hv, h1, h9⟩ := hfull (flatIndex q r c) hfi
  have hread : readBoard b (flatIndex q r c) = b[q][r][c] := by
    unfold readBoard
    rw [hfq, hfr, hfc, List.getD_eq_getElem b [] hq, List.getD_eq_getElem _ [] hr,
      List.getD_eq_getElem _ none hc]
  rw [hread] at hv
  rw [hv]
  unfold cellOK
  simp only [Bool.and_eq_true, decide_eq_true_eq]
  exact ⟨h1, h9⟩

theorem isValidBoardFrom_extract : ∀ (fuel : Nat) (b : Board) (i : Nat),
    wfBoard b = true → (isValidBoardFrom b i fuel).1 = true → ∀ j, i ≤ j → j < i + fuel →
    truthy (getCell b (boardRowIndex j) (boardColumnIndex j)) = true →
    getCell b (boardRowIndex j) (boardColumnIndex j) ∈
      (getValidPossibleValues b (boardRowIndex j) (boardColumnIndex j) true).1 := by
  intro fuel
  induction fuel with
  | zero =>
    intro b i _ _ j h1 h2
    omega
  | succ n ih =>
    intro b i hw hvalid j h1 h2 ht
    have hbd := gvpv_board b (boardRowIndex i) (boardColumnIndex i) true hw
    cases hX : (truthy (getCell b (boardRowIndex i) (boardColumnIndex i)) &&
        !((getValidPossibleValues b (boardRowIndex i) (boardColumnIndex i)
          true).1.contains (getCell b (boardRowIndex i) (boardColumnIndex i)))) with
    | true =>
      exfalso
      have hfalse : (isValidBoardFrom b i (n + 1)).1 = false := by
        simp only [isValidBoardFrom, hX, if_true]
      rw [hvalid] at hfalse
      cases hfalse
    | false =>
      have hrec : isValidBoardFrom b i (n + 1) =
          isValidBoardFrom (getValidPossibleValues b (boardRowIndex i) (boardColumnIndex i)
            true).2 (i + 1) n := by
        simp only [isValidBoardFrom, hX, Bool.false_eq_true, if_false]
      rw [hrec, hbd] at hvalid
      rcases Nat.eq_or_lt_of_le h1 with he | hlt
      · rw [← he] at ht ⊢
        by_contra hmem
        have hT : (truthy (getCell b (boardRowIndex i) (boardColumnIndex i)) &&
            !((getValidPossibleValues b (boardRowIndex i) (boardColumnIndex i)
              true).1.contains (getCell b (boardRowIndex i) (boardColumnIndex i)))) =
            true := by
          rw [ht]
          simp only [Bool.true_and, Bool.not_eq_true']
          exact contains_false _ _ hmem
        rw [hX] at hT
        cases hT
      · exact ih b (i + 1) hw hvalid j hlt (by omega) ht

theorem isValidBoard_extract (b : Board) (hw : wfBoard b = true)
    (hvalid : (isValidBoard b).1 = true) : ∀ j, j < 81 →
    truthy (getCell b (boardRowIndex j) (boardColumnIndex j)) = true →
    getCell b (boardRowIndex j) (boardColumnIndex j) ∈
      (getValidPossibleValues b (boardRowIndex j) (boardColumnIndex j) true).1 := by
  intro j hj ht
  exact isValidBoardFrom_extract 81 b 0 hw hvalid j (by omega) (by omega) ht

theorem gvpv_true_mem (b : Board) (row column : Nat) (hw : wfBoard b = true) (x : Cell) :
    x ∈ (getValidPossibleValues b row column true).1 ↔
      x ∈ completedSet ∧ ¬(x ∈ getBoardRegion (removeCell b row column) row column ∨
        x ∈ getBoardRow (removeCell b row column) row ∨
        x ∈ getBoardColumn (removeCell b row column) column) := by
  have he : getValidPossibleValues b row column true =
      getValidPossibleValuesTail (removeCell b row column) row column
        (getCell b row column) := rfl
  rw [he]
  exact gvpvTail_mem _ row column _ (wfBoard_write b (row * 9 + column) none hw rfl) x

end SudokuSolver

namespace SudokuSolver

/-! ### Distinctness of values within a group on a valid full board -/

theorem bri_bci_lt : ∀ j < 81, boardRowIndex j < 9 ∧ boardColumnIndex j < 9 := by decide

theorem rmi_lt : ∀ q < 9, ∀ t < 9, regionMemberIndex q t < 81 := by decide

set_option maxRecDepth 4000 in
theorem rmi_ne : ∀ q < 9, ∀ t1 < 9, ∀ t2 < 9, t1 ≠ t2 →
    regionMemberIndex q t1 ≠ regionMemberIndex q t2 := by decide

theorem row_col_split (j : Nat) : boardRowIndex j * 9 + boardColumnIndex j = j := by
  unfold boardRowIndex boardColumnIndex
  omega

theorem truthy_of_full (b : Board) (j : Nat) (v : Nat) (hv : readBoard b j = some v)
    (h1 : 1 ≤ v) : truthy (getCell b (boardRowIndex j) (boardColumnIndex j)) = true := by
  rw [getCell_read, row_col_split, hv]
  unfold truthy
  simp only [bne_iff_ne, ne_eq]
  omega

theorem solved_row_distinct (b : Board) (hw : wfBoard b = true)
    (hvalid : (isValidBoard b).1 = true)
    (hfull : ∀ i, i < 81 → ∃ v, readBoard b i = some v ∧ 1 ≤ v ∧ v ≤ 9) :
    ∀ row, row < 9 → ∀ c1, c1 < 9 → ∀ c2, c2 < 9 → c1 ≠ c2 →
      readBoard b (row * 9 + c1) ≠ readBoard b (row * 9 + c2) := by
  intro row hrow c1 hc1 c2 hc2 hne heq
  obtain ⟨v, hv, h1, _⟩ := hfull (row * 9 + c1) (by omega)
  have ht := truthy_of_full b (row * 9 + c1) v hv h1
  have hmem := isValidBoard_extract b hw hvalid (row * 9 + c1) (by omega) ht
  obtain ⟨hbr, hbc⟩ := rc_index row hrow c1 hc1
  rw [hbr, hbc] at hmem
  rw [gvpv_true_mem b row c1 hw] at hmem
  apply hmem.2
  right
  left
  have hshape' : shapeOK (removeCell b row c1) = true :=
    shapeOK_write b _ none (wfBoard_shape b hw)
  rw [rowView _ row hshape' hrow, List.mem_map]
  refine ⟨c2, List.mem_range.mpr hc2, ?_⟩
  have hne2 : row * 9 + c2 ≠ row * 9 + c1 := by omega
  unfold removeCell
  rw [read_write_ne b (row * 9 + c2) (row * 9 + c1) none (by omega) (by omega) hne2]
  rw [getCell_read, heq]

theorem solved_col_distinct (b : Board) (hw : wfBoard b = true)
    (hvalid : (isValidBoard b).1 = true)
    (hfull : ∀ i, i < 81 → ∃ v, readBoard b i = some v ∧ 1 ≤ v ∧ v ≤ 9) :
    ∀ col, col < 9 → ∀ r1, r1 < 9 → ∀ r2, r2 < 9 → r1 ≠ r2 →
      readBoard b (r1 * 9 + col) ≠ readBoard b (r2 * 9 + col) := by
  intro col hcol r1 hr1 r2 hr2 hne heq
  obtain ⟨v, hv, h1, _⟩ := hfull (r1 * 9 + col) (by omega)
  have ht := truthy_of_full b (r1 * 9 + col) v hv h1
  have hmem := isValidBoard_extract b hw hvalid (r1 * 9 + col) (by omega) ht
  obtain ⟨hbr, hbc⟩ := rc_index r1 hr1 col hcol
  rw [hbr, hbc] at hmem
  rw [gvpv_true_mem b r1 col hw] at hmem
  apply hmem.2
  right
  right
  rw [colView, List.mem_map]
  refine ⟨r2, List.mem_range.mpr hr2, ?_⟩
  have hne2 : r2 * 9 + col ≠ r1 * 9 + col := by omega
  unfold removeCell
  rw [read_write_ne b (r2 * 9 + col) (r1 * 9 + col) none (by omega) (by omega) hne2]
  rw [getCell_read, heq]

theorem solved_region_distinct (b : Board) (hw : wfBoard b = true)
    (hvalid : (isValidBoard b).1 = true)
    (hfull : ∀ i, i < 81 → ∃ v, readBoard b i = some v ∧ 1 ≤ v ∧ v ≤ 9) :
    ∀ q, q < 9 → ∀ t1, t1 < 9 → ∀ t2, t2 < 9 → t1 ≠ t2 →
      readBoard b (regionMemberIndex q t1) ≠ readBoard b (regionMemberIndex q t2) := by
  intro q hq t1 ht1 t2 ht2 hne heq
  have hj1 : regionMemberIndex q t1 < 81 := rmi_lt q hq t1 ht1
  have hj2 : regionMemberIndex q t2 < 81 := rmi_lt q hq t2 ht2
  obtain ⟨v, hv, h1, _⟩ := hfull (regionMemberIndex q t1) hj1
  have ht := truthy_of_full b (regionMemberIndex q t1) v hv h1
  have hmem := isValidBoard_extract b hw hvalid (regionMemberIndex q t1) hj1 ht
  obtain ⟨hrow9, hcol9⟩ := bri_bci_lt (regionMemberIndex q t1) hj1
  rw [gvpv_true_mem b _ _ hw] at hmem
  apply hmem.2
  left
  have hshape' : shapeOK (removeCell b (boardRowIndex (regionMemberIndex q t1))
      (boardColumnIndex (regionMemberIndex q t1))) = true :=
    shapeOK_write b _ none (wfBoard_shape b hw)
  rw [regionView _ _ _ hshape' hrow9 hcol9, List.mem_map]
  refine ⟨t2, List.mem_range.mpr ht2, ?_⟩
  have hqidx : regionIndex (boardRowIndex (regionMemberIndex q t1) * 9 +
      boardColumnIndex (regionMemberIndex q t1)) = q := by
    rw [row_col_split]
    exact (regionMemberIndex_spec q hq t1 ht1).2.1
  rw [hqidx]
  have hne2 : regionMemberIndex q t2 ≠ boardRowIndex (regionMemberIndex q t1) * 9 +
      boardColumnIndex (regionMemberIndex q t1) := by
    rw [row_col_split]
    exact (rmi_ne q hq t2 ht2 t1 ht1 (by omega))
  unfold removeCell
  rw [read_write_ne b (regionMemberIndex q t2) _ none hj2 (by rw [row_col_split]; exact hj1)
    hne2]
  rw [getCell_read, row_col_split, heq]

end SudokuSolver

namespace SudokuSolver

/-! ### Each group of a solved board is exactly the digit set -/

theorem group_complete (l : List Cell) (hlen : l.length = 9) (hnodup : l.Nodup)
    (hsub : ∀ x ∈ l, x ∈ completedSet) : l.toFinset = completedSet.toFinset := by
  apply Finset.eq_of_subset_of_card_le
  · intro x hx
    rw [List.mem_toFinset] at hx
    rw [List.mem_toFinset]
    exact hsub x hx
  · rw [List.toFinset_card_of_nodup hnodup, hlen]
    have hc : completedSet.toFinset.card = 9 := by decide
    omega

theorem nodup_map_range9 (g : Nat → Cell)
    (hinj : ∀ a, a < 9 → ∀ c, c < 9 → a ≠ c → g a ≠ g c) : ((List.range 9).map g).Nodup := by
  refine List.Nodup.map_on ?_ (List.nodup_range 9)
  intro x hx y hy hxy
  rw [List.mem_range] at hx hy
  by_contra hne
  exact hinj x hx y hy hne hxy

theorem solved_groups (b : Board) (hw : wfBoard b = true)
    (hvalid : (isValidBoard b).1 = true)
    (hfull : ∀ i, i < 81 → ∃ v, readBoard b i = some v ∧ 1 ≤ v ∧ v ≤ 9) :
    (∀ row, row < 9 → (getBoardRow b row).toFinset = completedSet.toFinset) ∧
    (∀ col, col < 9 → (getBoardColumn b col).toFinset = completedSet.toFinset) ∧
    (∀ row col, row < 9 → col < 9 →
      (getBoardRegion b row col).toFinset = completedSet.toFinset) := by
  have hs := wfBoard_shape b hw
  refine ⟨?_, ?_, ?_⟩
  · intro row hrow
    rw [rowView b row hs hrow]
    apply group_complete
    · simp
    · exact nodup_map_range9 _ (fun c1 hc1 c2 hc2 hne =>
        solved_row_distinct b hw hvalid hfull row hrow c1 hc1 c2 hc2 hne)
    · intro x hx
      rw [List.mem_map] at hx
      obtain ⟨c, hc, hcx⟩ := hx
      rw [List.mem_range] at hc
      obtain ⟨v, hv, h1, h9⟩ := hfull (row * 9 + c) (by omega)
      rw [← hcx, hv, mem_completedSet]
      exact ⟨h1, h9⟩
  · intro col hcol
    rw [colView b col]
    apply group_complete
    · simp
    · refine nodup_map_range9 _ (fun r1 hr1 r2 hr2 hne => ?_)
      exact solved_col_distinct b hw hvalid hfull col hcol r1 hr1 r2 hr2 hne
    · intro x hx
      rw [List.mem_map] at hx
      obtain ⟨r, hr, hrx⟩ := hx
      rw [List.mem_range] at hr
      obtain ⟨v, hv, h1, h9⟩ := hfull (r * 9 + col) (by omega)
      rw [← hrx, hv, mem_completedSet]
      exact ⟨h1, h9⟩
  · intro row col hrow hcol
    have hq : regionIndex (row * 9 + col) < 9 := regionIndex_lt row col hrow hcol
    rw [regionView b row col hs hrow hcol]
    apply group_complete
    · simp
    · refine nodup_map_range9 _ (fun t1 ht1 t2 ht2 hne => ?_)
      exact solved_region_distinct b hw hvalid hfull _ hq t1 ht1 t2 ht2 hne
    · intro x hx
      rw [List.mem_map] at hx
      obtain ⟨t, htm, htx⟩ := hx
      rw [List.mem_range] at htm
      obtain ⟨v, hv, h1, h9⟩ := hfull (regionMemberIndex (regionIndex (row * 9 + col)) t)
        (rmi_lt _ hq t htm)
      rw [← htx, hv, mem_completedSet]
      exact ⟨h1, h9⟩

end SudokuSolver

namespace SudokuSolver

/-! ### Round trip from a full board through its string -/

theorem cellString_digit (v : Nat) (h1 : 1 ≤ v) (h9 : v ≤ 9) :
    ∃ c, (cellString (some v)).data = [c] ∧ c ∈ puzzleChars ∧ charToCell c = some v := by
  interval_cases v
  · exact ⟨'1', rfl, by decide, by decide⟩
  · exact ⟨'2', rfl, by decide, by decide⟩
  · exact ⟨'3', rfl, by decide, by decide⟩
  · exact ⟨'4', rfl, by decide, by decide⟩
  · exact ⟨'5', rfl, by decide, by decide⟩
  · exact ⟨'6', rfl, by decide, by decide⟩
  · exact ⟨'7', rfl, by decide, by decide⟩
  · exact ⟨'8', rfl, by decide, by decide⟩
  · exact ⟨'9', rfl, by decide, by decide⟩

theorem getD_map_range {α : Type} (f : Nat → α) (n i : Nat) (d : α) (hi : i < n) :
    ((List.range n).map f).getD i d = f i := by
  rw [List.getD_eq_getElem _ d (by simpa using hi)]
  simp

theorem solved_string_data (b : Board) (hfull : ∀ i, i < 81 →
    ∃ v, readBoard b i = some v ∧ 1 ≤ v ∧ v ≤ 9) :
    (getStringFromBoard b).data =
      (List.range 81).map (fun i => (cellString (readBoard b i)).data.getD 0 '.') := by
  unfold getStringFromBoard
  rw [string_join_data, List.map_map]
  have hpt : ∀ i ∈ List.range 81,
      (String.data ∘ fun index => cellString (readBoard b index)) i =
        [(cellString (readBoard b i)).data.getD 0 '.'] := by
    intro i hi
    rw [List.mem_range] at hi
    obtain ⟨v, hv, h1, h9⟩ := hfull i hi
    obtain ⟨c, hc1, _, _⟩ := cellString_digit v h1 h9
    simp only [Function.comp_apply, hv, hc1]
    rfl
  rw [List.map_congr_left hpt, flatten_map_singleton]

theorem solved_string_char (b : Board) (i : Nat) (hi : i < 81)
    (hfull : ∀ i, i < 81 → ∃ v, readBoard b i = some v ∧ 1 ≤ v ∧ v ≤ 9) :
    (cellString (readBoard b i)).data.getD 0 '.' ∈ puzzleChars ∧
    charToCell ((cellString (readBoard b i)).data.getD 0 '.') = readBoard b i := by
  obtain ⟨v, hv, h1, h9⟩ := hfull i hi
  obtain ⟨c, hc1, hc2, hc3⟩ := cellString_digit v h1 h9
  rw [hv, hc1]
  exact ⟨hc2, by simpa using hc3⟩

theorem solved_string_valid (b : Board) (hfull : ∀ i, i < 81 →
    ∃ v, readBoard b i = some v ∧ 1 ≤ v ∧ v ≤ 9) :
    isValidPuzzleString (getStringFromBoard b) = true := by
  have hdata := solved_string_data b hfull
  unfold isValidPuzzleString isValidLength isValidCharacters
  have hlen : (getStringFromBoard b).length = 81 := by
    show (getStringFromBoard b).data.length = 81
    rw [hdata]
    simp
  rw [hlen]
  simp only [beq_self_eq_true, Bool.true_and, Bool.and_eq_true]
  constructor
  · rw [hdata]
    simp [List.isEmpty_iff, List.range_succ]
  · rw [List.all_eq_true]
    intro c hc
    rw [hdata, List.mem_map] at hc
    obtain ⟨i, hi, hic⟩ := hc
    rw [List.mem_range] at hi
    have := (solved_string_char b i hi hfull).1
    rw [hic] at this
    simpa using this

theorem solved_roundtrip (b : Board) (hs : shapeOK b = true)
    (hfull : ∀ i, i < 81 → ∃ v, readBoard b i = some v ∧ 1 ≤ v ∧ v ≤ 9) :
    setBoardFromString emptyBoard (getStringFromBoard b) = b := by
  have hdata := solved_string_data b hfull
  have hvalids := solved_string_valid b hfull
  have hb : setBoardFromString emptyBoard (getStringFromBoard b) =
      setCells emptyBoard 0 (getStringFromBoard b).data := by
    simp [setBoardFromString, hvalids]
  have hlen : (getStringFromBoard b).data.length = 81 := by
    rw [hdata]
    simp
  apply board_ext _ b (by rw [hb]; exact setCells_shape _ emptyBoard 0 shapeOK_emptyBoard) hs
  intro i hi
  rw [hb]
  rw [setCells_read (getStringFromBoard b).data emptyBoard 0 shapeOK_emptyBoard
    (by omega) i (by omega) (by omega)]
  have hgd : (getStringFromBoard b).data.getD (i - 0) '.' =
      (cellString (readBoard b i)).data.getD 0 '.' := by
    rw [hdata]
    simpa using getD_map_range _ 81 i '.' hi
  rw [hgd]
  exact (solved_string_char b i hi hfull).2

end SudokuSolver

namespace SudokuSolver

theorem backtrack_shape (cell0 : Frame) (stack : List Frame) (b : Board)
    (hs : shapeOK b = true) : shapeOK (backtrack cell0 stack b).2.2 = true := by
  unfold backtrack
  split
  · split
    · exact setBoardFromString_shape _ _ hs
    · exact hs
  · exact hs

/-- A `done` outcome of one loop body is a crash or the unsolvable return;
a `next` outcome carries a board of the correct shape. -/
theorem solveStep_out (det : Bool) (o : Nat → Nat) (b : Board) (stack : List Frame) (k : Nat)
    (hs : shapeOK b = true) :
    (∀ r bd, solveStep det o b stack k = StepOut.done r bd →
      r = SolveResult.crash ∨ r = SolveResult.unsolvable) ∧
    (∀ b1 stack1 k1, solveStep det o b stack k = StepOut.next b1 stack1 k1 →
      shapeOK b1 = true) := by
  have hscan : shapeOK (scanFrom b 0 [] 9 81).2 = true := scanFrom_shape 81 b 0 [] 9 hs
  constructor
  · intro r bd h
    simp only [solveStep] at h
    split at h
    · injection h with h1 _
      exact Or.inl h1.symm
    · rename_i cell0 hsel
      by_cases hc2 : ((backtrack cell0 stack (scanFrom b 0 [] 9 81).2).1.values.length == 0 &&
          (backtrack cell0 stack (scanFrom b 0 [] 9 81).2).2.1.length == 0) = true
      · rw [if_pos hc2] at h
        injection h with h1 _
        exact Or.inr h1.symm
      · rw [if_neg hc2] at h
        split at h
        · injection h with h1 _
          exact Or.inl h1.symm
        · exact StepOut.noConfusion h
  · intro b1 stack1 k1 h
    simp only [solveStep] at h
    split at h
    · exact StepOut.noConfusion h
    · rename_i cell0 hsel
      by_cases hc2 : ((backtrack cell0 stack (scanFrom b 0 [] 9 81).2).1.values.length == 0 &&
          (backtrack cell0 stack (scanFrom b 0 [] 9 81).2).2.1.length == 0) = true
      · rw [if_pos hc2] at h
        exact StepOut.noConfusion h
      · rw [if_neg hc2] at h
        split at h
        · exact StepOut.noConfusion h
        · injection h with h1 _
          rw [← h1]
          exact shapeOK_setCell _ _ _ _ (backtrack_shape _ _ _ hscan)

end SudokuSolver

namespace SudokuSolver

/-- A `solved` outcome of the loop comes from a full, valid, well-formed
board whose serialization is the returned string. -/
theorem solveLoop_solved : ∀ (fuel : Nat) (det : Bool) (o : Nat → Nat) (b : Board)
    (stack : List Frame) (count k : Nat) (s : String) (bf : Board),
    shapeOK b = true →
    solveLoop det o fuel b stack count k = (SolveResult.solved s, bf) →
    wfBoard bf = true ∧ (isValidBoard bf).1 = true ∧ s = getStringFromBoard bf ∧
    (∀ i, i < 81 → ∃ v, readBoard bf i = some v ∧ 1 ≤ v ∧ v ≤ 9) := by
  intro fuel
  induction fuel with
  | zero =>
    intro det o b stack count k s bf hs h
    simp only [solveLoop] at h
    injection h with h1 _
    exact SolveResult.noConfusion h1
  | succ n ih =>
    intro det o b stack count k s bf hs h
    simp only [solveLoop] at h
    by_cases hsolved : (isBoardSolved b).1 = true
    · rw [if_pos hsolved] at h
      injection h with h1 h2
      injection h1 with h1
      obtain ⟨hvalid, hdiff⟩ := isBoardSolved_parts b hsolved
      have hfull := solved_cells b hs hdiff
      have hw : wfBoard b = true := solved_wf b hs hfull
      have hb2 : (isBoardSolved b).2 = b := isBoardSolved_board b hw
      rw [hb2] at h1 h2
      subst h2
      refine ⟨hw, hvalid, h1.symm, hfull⟩
    · rw [if_neg hsolved] at h
      have hshape2 : shapeOK (isBoardSolved b).2 = true := isBoardSolved_shape b hs
      cases hstep : solveStep det o (isBoardSolved b).2 stack k with
      | done r bd =>
        simp only [hstep] at h
        have hro := (solveStep_out det o (isBoardSolved b).2 stack k hshape2).1 r bd hstep
        injection h with h1 _
        rcases hro with hr | hr <;> rw [hr] at h1 <;> exact SolveResult.noConfusion h1
      | next b1 stack1 k1 =>
        simp only [hstep] at h
        by_cases hcc : (count + 1 == 5000) = true
        · rw [if_pos hcc] at h
          injection h with h1 _
          exact SolveResult.noConfusion h1
        · rw [if_neg hcc] at h
          have hs1 := (solveStep_out det o (isBoardSolved b).2 stack k hshape2).2
            b1 stack1 k1 hstep
          exact ih det o b1 stack1 (count + 1) k1 s bf hs1 h

/-- C1: whenever `solve` returns a solution string, re-parsing that string
yields a board accepted by `isValidBoard` on which every row, column and
region is exactly the digit set 1..9. -/
theorem claim_C1 (det : Bool) (o : Nat → Nat) (b : Board) (s : String)
    (hs : shapeOK b = true) (hrun : (solve det o b).1 = SolveResult.solved s) :
    (isValidBoard (setBoardFromString emptyBoard s)).1 = true ∧
    (∀ row, row < 9 →
      (getBoardRow (setBoardFromString emptyBoard s) row).toFinset = completedSet.toFinset) ∧
    (∀ col, col < 9 →
      (getBoardColumn (setBoardFromString emptyBoard s) col).toFinset =
        completedSet.toFinset) ∧
    (∀ row col, row < 9 → col < 9 →
      (getBoardRegion (setBoardFromString emptyBoard s) row col).toFinset =
        completedSet.toFinset) := by
  simp only [solve] at hrun
  by_cases hv : (isValidBoard b).1 = true
  · rw [if_pos hv] at hrun
    have hsv : shapeOK (isValidBoard b).2 = true := isValidBoardFrom_shape 81 b 0 hs
    have heq : solveLoop det o 5000 (isValidBoard b).2 [] 0 0 =
        (SolveResult.solved s, (solveLoop det o 5000 (isValidBoard b).2 [] 0 0).2) :=
      Prod.ext hrun rfl
    obtain ⟨hw, hvalid, hseq, hfull⟩ :=
      solveLoop_solved 5000 det o (isValidBoard b).2 [] 0 0 s _ hsv heq
    have hrt : setBoardFromString emptyBoard s =
        (solveLoop det o 5000 (isValidBoard b).2 [] 0 0).2 := by
      rw [hseq]
      exact solved_roundtrip _ (wfBoard_shape _ hw) hfull
    obtain ⟨hrows, hcols, hregs⟩ := solved_groups _ hw hvalid hfull
    rw [hrt]
    exact ⟨hvalid, hrows, hcols, hregs⟩
  · rw [if_neg hv] at hrun
    exact absurd hrun (by simp)

theorem claim_C1_witness :
    shapeOK (setBoardFromString emptyBoard fullSolution) = true ∧
    (solve true oracleA (setBoardFromString emptyBoard fullSolution)).1 =
      SolveResult.solved fullSolution ∧
    ((isValidBoard (setBoardFromString emptyBoard fullSolution)).1 = true ∧
    (∀ row, row < 9 →
      (getBoardRow (setBoardFromString emptyBoard fullSolution) row).toFinset =
        completedSet.toFinset) ∧
    (∀ col, col < 9 →
      (getBoardColumn (setBoardFromString emptyBoard fullSolution) col).toFinset =
        completedSet.toFinset) ∧
    (∀ row col, row < 9 → col < 9 →
      (getBoardRegion (setBoardFromString emptyBoard fullSolution) row col).toFinset =
        completedSet.toFinset)) :=
  have hshape : shapeOK (setBoardFromString emptyBoard fullSolution) = true := by decide
  have hrun : (solve true oracleA (setBoardFromString emptyBoard fullSolution)).1 =
      SolveResult.solved fullSolution := by decide
  ⟨hshape, hrun,
    claim_C1 true oracleA (setBoardFromString emptyBoard fullSolution) fullSolution
      hshape hrun⟩

end SudokuSolver
